import Mathlib

/-!
Verification of the core simulation engine of the "Dead End" tower-defense
repository: the A* pathfinder (`src/game/systems/pathfinder.py`), the grid
placement logic (`src/game/grid.py`), the wave manager
(`src/game/systems/wave_manager.py`), the enemy / projectile entities
(`src/game/entities/enemy.py`, `src/game/entities/projectile.py`) and the
economy ledger (`src/game/systems/economy.py`).

Conventions of the embedding:
* Python `int` is `ℤ` (or `ℕ` where the source only ever produces
  non-negative values, such as A* costs).
* Python `float` state (enemy/projectile kinematics) is real-valued and the
  corresponding per-tick updates are modelled as step relations, since the
  numeric branches (`math.hypot`, divisions) are not executable.
* A Python function that can raise (out-of-range list indexing) returns
  `Option`; `none` is an uncaught exception.
* `heapq` is modelled by its observable semantics: a multiset of entries
  from which `heappop` removes a minimal element in the lexicographic
  tuple order that Python uses to compare `(priority, (x, y))` entries.
-/

/-- Grid coordinates: pairs of Python ints. -/
abbrev Coord : Type := ℤ × ℤ

namespace DeadEnd

/-! ## Pathfinder (`src/game/systems/pathfinder.py`) -/

/-- State of `Pathfinder.__init__`: bounds plus the mutable obstacle set. -/
structure Pathfinder where
  width : ℤ
  height : ℤ
  obstacles : Finset Coord
deriving DecidableEq

/-- `Pathfinder.set_obstacles`: replace the obstacle set (the Python `copy`
is irrelevant for a value-level embedding). -/
def Pathfinder.set_obstacles (pf : Pathfinder) (obs : Finset Coord) : Pathfinder :=
  { pf with obstacles := obs }

/-- `Pathfinder.add_obstacle`. -/
def Pathfinder.add_obstacle (pf : Pathfinder) (x y : ℤ) : Pathfinder :=
  { pf with obstacles := insert (x, y) pf.obstacles }

/-- `Pathfinder.remove_obstacle` (`set.discard`: no error when absent). -/
def Pathfinder.remove_obstacle (pf : Pathfinder) (x y : ℤ) : Pathfinder :=
  { pf with obstacles := pf.obstacles.erase (x, y) }

/-- `Pathfinder.is_valid`: inside bounds and not blocked. -/
def Pathfinder.is_valid (pf : Pathfinder) (x y : ℤ) : Bool :=
  decide (0 ≤ x) && decide (x < pf.width) && decide (0 ≤ y) &&
    decide (y < pf.height) && decide ((x, y) ∉ pf.obstacles)

/-- `Pathfinder.heuristic`: Manhattan distance. -/
def Pathfinder.heuristic (_pf : Pathfinder) (a b : Coord) : ℕ :=
  (a.1 - b.1).natAbs + (a.2 - b.2).natAbs

/-- `Pathfinder.get_neighbors`: the valid 4-neighbours, in the source's
fixed expansion order `(0,1), (1,0), (0,-1), (-1,0)` for `(dx, dy)`. -/
def Pathfinder.get_neighbors (pf : Pathfinder) (pos : Coord) : List Coord :=
  [(pos.1, pos.2 + 1), (pos.1 + 1, pos.2), (pos.1, pos.2 - 1), (pos.1 - 1, pos.2)].filter
    (fun c => pf.is_valid c.1 c.2)

/-- Python's ordering on heap entries `(priority, (x, y))`: lexicographic
tuple comparison, exactly what `heapq` uses to decide the minimum. -/
def entryLe (a b : ℕ × Coord) : Prop :=
  a.1 < b.1 ∨ (a.1 = b.1 ∧ (a.2.1 < b.2.1 ∨ (a.2.1 = b.2.1 ∧ a.2.2 ≤ b.2.2)))

instance : DecidablePred fun p : (ℕ × Coord) × (ℕ × Coord) => entryLe p.1 p.2 := by
  intro p; unfold entryLe; infer_instance

instance (a b : ℕ × Coord) : Decidable (entryLe a b) := by
  unfold entryLe; infer_instance

/-- `heapq.heappop`: remove a minimal entry (tuple order) from the multiset
of pending entries.  Returns the minimum and the remaining entries. -/
def heapPop : List (ℕ × Coord) → Option ((ℕ × Coord) × List (ℕ × Coord))
  | [] => none
  | e :: rest =>
    match heapPop rest with
    | none => some (e, [])
    | some (m, rest2) => if entryLe e m then some (e, rest) else some (m, e :: rest2)

/-- Mutable state of the A* main loop: the frontier heap, `came_from` and
`cost_so_far` dictionaries (dictionaries as partial maps). -/
structure AState where
  frontier : List (ℕ × Coord)
  cameFrom : Coord → Option (Option Coord)
  cost : Coord → Option ℕ

/-- Body of the `for next_pos in self.get_neighbors(current)` loop of
`Pathfinder.find_path`.  `cost_so_far[current]` is always present when this
runs (lemma `relax_cur_lookup` area below), so the `getD 0` default is
never consulted on a reachable state. -/
def relax (pf : Pathfinder) (goal cur : Coord) (st : AState) (nxt : Coord) : AState :=
  let newCost := (st.cost cur).getD 0 + 1
  let push : AState :=
    { frontier := (newCost + pf.heuristic nxt goal, nxt) :: st.frontier,
      cameFrom := Function.update st.cameFrom nxt (some (some cur)),
      cost := Function.update st.cost nxt (some newCost) }
  match st.cost nxt with
  | some old => if newCost < old then push else st
  | none => push

/-- Path reconstruction of `find_path`: follow `came_from` links from the
goal back to the start (whose stored parent is `None`), accumulating the
path in start-to-goal order (the Python `path[::-1]`).  A missing key would
be a `KeyError` in Python, modelled as `none`; the fuel only runs out on
states the algorithm never produces. -/
def reconstruct (cf : Coord → Option (Option Coord)) : ℕ → Coord → List Coord → Option (List Coord)
  | 0, _, _ => none
  | fuel + 1, cur, acc =>
    match cf cur with
    | none => none
    | some none => some (cur :: acc)
    | some (some p) => reconstruct cf fuel p (cur :: acc)

/-- Number of cells inside the bounds; used for fuel bounds. -/
def Pathfinder.cellCount (pf : Pathfinder) : ℕ :=
  pf.width.toNat * pf.height.toNat

/-- Fuel that provably dominates the number of iterations of the A* loop
(each iteration strictly decreases `2·Φ + |frontier|`, see the termination
lemmas below). -/
def Pathfinder.fuelBound (pf : Pathfinder) : ℕ :=
  2 * (pf.cellCount * pf.cellCount) + 2

/-- The `while frontier:` loop of `Pathfinder.find_path`.  Outer `none`
means out of fuel (never happens from the initial state, proved below);
`some none` is the Python `return None` (no path), and `some (some p)` the
reconstructed path. -/
def astarLoop (pf : Pathfinder) (goal : Coord) : ℕ → AState → Option (Option (List Coord))
  | 0, _ => none
  | fuel + 1, st =>
    match heapPop st.frontier with
    | none => some none
    | some ((_, cur), rest) =>
      if cur = goal then
        some (reconstruct st.cameFrom (pf.cellCount + 1) cur [])
      else
        astarLoop pf goal fuel
          (List.foldl (relax pf goal cur) { st with frontier := rest } (pf.get_neighbors cur))

/-- Initial loop state of `find_path`: `frontier = [(0, start)]`,
`came_from = \x7bstart: None\x7d`, `cost_so_far = \x7bstart: 0\x7d`. -/
def astarInit (s : Coord) : AState :=
  { frontier := [(0, s)],
    cameFrom := Function.update (fun _ => none) s (some none),
    cost := Function.update (fun _ => none) s (some 0) }

/-- `Pathfinder.find_path`: `None` when start or goal is invalid, otherwise
run A*. -/
def Pathfinder.find_path (pf : Pathfinder) (s goal : Coord) : Option (List Coord) :=
  if !(pf.is_valid s.1 s.2) || !(pf.is_valid goal.1 goal.2) then none
  else Option.join (astarLoop pf goal pf.fuelBound (astarInit s))

/-- `Pathfinder.has_path`. -/
def Pathfinder.has_path (pf : Pathfinder) (s goal : Coord) : Bool :=
  (pf.find_path s goal).isSome

/-! ## Economy (`src/game/systems/economy.py`) -/

/-- State of `Economy.__init__` (with `STARTING_MONEY = 150`,
`STARTING_LIVES = 20` from `config.py`). -/
structure Economy where
  money : ℤ
  lives : ℤ
  max_lives : ℤ
  total_earned : ℤ
  total_spent : ℤ
  enemies_killed : ℤ
  waves_completed : ℤ
deriving DecidableEq, Repr

/-- `Economy.__init__`. -/
def Economy.init : Economy :=
  { money := 150, lives := 20, max_lives := 20,
    total_earned := 0, total_spent := 0, enemies_killed := 0, waves_completed := 0 }

/-- `Economy.can_afford`. -/
def Economy.can_afford (e : Economy) (amount : ℤ) : Bool :=
  decide (e.money ≥ amount)

/-- `Economy.spend`: returns the new state and the Python return value. -/
def Economy.spend (e : Economy) (amount : ℤ) : Economy × Bool :=
  if e.can_afford amount then
    ({ e with money := e.money - amount, total_spent := e.total_spent + amount }, true)
  else (e, false)

/-- `Economy.earn`. -/
def Economy.earn (e : Economy) (amount : ℤ) : Economy :=
  { e with money := e.money + amount, total_earned := e.total_earned + amount }

/-- `Economy.enemy_killed`. -/
def Economy.enemy_killed (e : Economy) (reward : ℤ) : Economy :=
  { e.earn reward with enemies_killed := e.enemies_killed + 1 }

/-- `Economy.enemy_reached_end` (default argument `damage = 1` is passed
explicitly by callers of this embedding). -/
def Economy.enemy_reached_end (e : Economy) (damage : ℤ) : Economy :=
  let e2 := { e with lives := e.lives - damage }
  if e2.lives < 0 then { e2 with lives := 0 } else e2

/-- `Economy.is_game_over`. -/
def Economy.is_game_over (e : Economy) : Bool :=
  decide (e.lives ≤ 0)

/-- `Economy.wave_completed`: increment the counter, then grant the bonus
computed from the post-increment count. -/
def Economy.wave_completed (e : Economy) : Economy :=
  let e2 := { e with waves_completed := e.waves_completed + 1 }
  e2.earn (10 + e2.waves_completed * 5)

/-! ## Python list / dict access helpers

Python list indexing accepts negative indices (wrap-around from the end)
and raises `IndexError` otherwise; `none` models the uncaught exception. -/

/-- Resolve a Python list index against a length. -/
def pyIdx (len : ℕ) (i : ℤ) : Option ℕ :=
  if 0 ≤ i ∧ i < (len : ℤ) then some i.toNat
  else if -(len : ℤ) ≤ i ∧ i < 0 then some (i + len).toNat
  else none

/-- Python `l[i]` read. -/
def pyGet {α : Type} (l : List α) (i : ℤ) : Option α :=
  (pyIdx l.length i).bind l.get?

/-- Python `l[i] = a` write. -/
def pySet {α : Type} (l : List α) (i : ℤ) (a : α) : Option (List α) :=
  (pyIdx l.length i).map (fun n => l.set n a)

/-- Python `m[i][j]` read on a list of lists. -/
def pyGet2 {α : Type} (m : List (List α)) (i j : ℤ) : Option α :=
  (pyGet m i).bind (fun row => pyGet row j)

/-- Python `m[i][j] = a` write on a list of lists. -/
def pySet2 {α : Type} (m : List (List α)) (i j : ℤ) (a : α) : Option (List (List α)) :=
  (pyGet m i).bind (fun row => (pySet row j a).bind (fun row2 => pySet m i row2))

/-- Python `dict` insertion (`d[k] = v`): overwrite or add. -/
def dictInsert {α : Type} (d : List (Coord × α)) (k : Coord) (v : α) : List (Coord × α) :=
  if (d.lookup k).isSome then d.map (fun kv => if kv.1 = k then (k, v) else kv)
  else (k, v) :: d

/-- Python `del d[k]` under a `k in d` guard, as used by `remove_tower`. -/
def dictDelete {α : Type} (d : List (Coord × α)) (k : Coord) : List (Coord × α) :=
  d.filter (fun kv => kv.1 ≠ k)

/-! ## Grid (`src/game/grid.py`)

The rendering-only data of the source (`tile_size`, pixel offsets, sprite
caches, colors, tile textures) is omitted; `Decoration` instances are
reduced to their `dec_type` string, the only datum the game logic reads
(occupancy).  Tower instances are identified by an opaque `ℕ` id: the grid
logic only stores and deletes them. -/

/-- State of `Grid.__init__` that the game logic reads and writes. -/
structure GridState where
  width : ℤ
  height : ℤ
  cells : List (List (Option String))
  towers : List (Coord × ℕ)
  obstacles : Finset Coord
  start_pos : Coord
  end_pos : Coord
  current_path : List Coord
  decorations : List (List (Option String))
deriving DecidableEq

/-- The grid's `self.pathfinder` (constructed with the grid's bounds and
holding the grid's obstacle set). -/
def GridState.pf (g : GridState) : Pathfinder :=
  { width := g.width, height := g.height, obstacles := g.obstacles }

/-- `Grid._update_path`: `self.current_path = self.pathfinder.find_path(...) or []`. -/
def GridState.update_path (g : GridState) : GridState :=
  { g with current_path := (g.pf.find_path g.start_pos g.end_pos).getD [] }

/-- `Grid.get_path` (the Python `copy` is identity on values). -/
def GridState.get_path (g : GridState) : List Coord :=
  g.current_path

/-- `Grid.is_valid_placement`.  `none` is an uncaught `IndexError` from the
`self.cells[gx][gy]` / `self.decorations[gx][gy]` reads. -/
def GridState.is_valid_placement (g : GridState) (gx gy : ℤ) : Option Bool :=
  if (gx, gy) = g.start_pos ∨ (gx, gy) = g.end_pos then some false
  else
    match pyGet2 g.cells gx gy with
    | none => none
    | some (some _) => some false
    | some none =>
      match pyGet2 g.decorations gx gy with
      | none => none
      | some (some _) => some false
      | some none =>
        some ((Pathfinder.mk g.width g.height (insert (gx, gy) g.obstacles)).has_path
          g.start_pos g.end_pos)

/-- `Grid.place_tower`: validate, then commit cell, tower, obstacle and
recompute the path.  Returns the new state and the Python return value;
`none` is an uncaught `IndexError`. -/
def GridState.place_tower (g : GridState) (gx gy : ℤ) (tower_type : String) (tower_id : ℕ) :
    Option (GridState × Bool) :=
  match g.is_valid_placement gx gy with
  | none => none
  | some false => some (g, false)
  | some true =>
    match pySet2 g.cells gx gy (some tower_type) with
    | none => none
    | some cells2 =>
      some ((GridState.update_path
        { g with cells := cells2,
                 towers := dictInsert g.towers (gx, gy) tower_id,
                 obstacles := insert (gx, gy) g.obstacles }), true)

/-- `Grid.remove_tower`.  `none` is an uncaught `IndexError` from the
`self.cells[gx][gy]` read. -/
def GridState.remove_tower (g : GridState) (gx gy : ℤ) : Option (GridState × Bool) :=
  match pyGet2 g.cells gx gy with
  | none => none
  | some none => some (g, false)
  | some (some _) =>
    match pySet2 g.cells gx gy none with
    | none => none
    | some cells2 =>
      some ((GridState.update_path
        { g with cells := cells2,
                 towers := dictDelete g.towers (gx, gy),
                 obstacles := g.obstacles.erase (gx, gy) }), true)

/-- The decoration sets `_generate_decorations` can produce for a given
bounds/anchor configuration: decorations are added one at a time, never on
the anchors, in bounds, and only when the trial obstacle set still admits a
path (the spacing heuristic only restricts this set further and does not
affect any invariant).  Randomness makes the generator relational. -/
inductive DecorGen (w h : ℤ) (s e : Coord) : Finset Coord → Prop
  | nil : DecorGen w h s e ∅
  | add (D : Finset Coord) (c : Coord) :
      DecorGen w h s e D → c ∉ D → c ≠ s → c ≠ e →
      0 ≤ c.1 → c.1 < w → 0 ≤ c.2 → c.2 < h →
      (Pathfinder.mk w h (insert c D)).has_path s e = true →
      DecorGen w h s e (insert c D)

/-- States produced by `Grid.__init__` with the `config.py` constants
(`GRID_WIDTH = 30`, `GRID_HEIGHT = 20`, anchors `(0, 10)` and `(29, 10)`),
for any random decoration outcome. -/
def GridInit (g : GridState) : Prop :=
  g.width = 30 ∧ g.height = 20 ∧
  g.start_pos = (0, 10) ∧ g.end_pos = (29, 10) ∧
  g.cells = List.replicate 30 (List.replicate 20 none) ∧
  g.towers = [] ∧
  DecorGen 30 20 (0, 10) (29, 10) g.obstacles ∧
  g.decorations.length = 30 ∧ (∀ row ∈ g.decorations, row.length = 20) ∧
  (∀ x y : ℤ, 0 ≤ x → x < 30 → 0 ≤ y → y < 20 →
    ((x, y) ∈ g.obstacles ↔ ∃ d, pyGet2 g.decorations x y = some (some d))) ∧
  g.current_path = (g.pf.find_path g.start_pos g.end_pos).getD []

/-- Shape well-formedness of the grid's two cell matrices (their Python
construction makes them `width` lists of `height` entries). -/
def GridWF (g : GridState) : Prop :=
  g.cells.length = g.width.toNat ∧ (∀ row ∈ g.cells, row.length = g.height.toNat) ∧
  g.decorations.length = g.width.toNat ∧ (∀ row ∈ g.decorations, row.length = g.height.toNat)

/-- The connectivity invariant the grid maintains: a path currently exists
and `current_path` is the recomputed path. -/
def GridInv (g : GridState) : Prop :=
  g.pf.has_path g.start_pos g.end_pos = true ∧
  g.current_path = (g.pf.find_path g.start_pos g.end_pos).getD []

/-- A mutating grid call: `place_tower` or `remove_tower`. -/
inductive GOp
  | place (gx gy : ℤ) (tower_type : String) (tower_id : ℕ)
  | remove (gx gy : ℤ)

/-- Run one mutating call. -/
def runOp (g : GridState) : GOp → Option (GridState × Bool)
  | GOp.place gx gy ty tid => g.place_tower gx gy ty tid
  | GOp.remove gx gy => g.remove_tower gx gy

/-- A sequence of mutating calls each of which returned success. -/
inductive AcceptedRun : GridState → List GOp → GridState → Prop
  | nil (g : GridState) : AcceptedRun g [] g
  | cons (g g2 g3 : GridState) (op : GOp) (ops : List GOp) :
      runOp g op = some (g2, true) → AcceptedRun g2 ops g3 →
      AcceptedRun g (op :: ops) g3

/-! ## Paths and reachability (specification vocabulary)

`IsPath` is the graph-theoretic notion the A* theorems are stated with: a
nonempty coordinate sequence from `s` to `e` whose every step moves to a
valid 4-neighbour. -/

/-- One legal step: `b` is among the valid 4-neighbours of `a`. -/
def StepOk (pf : Pathfinder) (a b : Coord) : Prop :=
  b ∈ pf.get_neighbors a

instance (pf : Pathfinder) (a b : Coord) : Decidable (StepOk pf a b) :=
  inferInstanceAs (Decidable (b ∈ pf.get_neighbors a))

instance instDecChainStepOk (pf : Pathfinder) :
    (l : List Coord) → Decidable (List.Chain' (StepOk pf) l)
  | [] => isTrue List.chain'_nil
  | [a] => isTrue (List.chain'_singleton a)
  | a :: b :: r =>
    match instDecChainStepOk pf (b :: r),
        (inferInstance : Decidable (StepOk pf a b)) with
    | isTrue ht, isTrue hs => isTrue (List.chain'_cons.mpr ⟨hs, ht⟩)
    | _, isFalse hs => isFalse (fun hc => hs (List.chain'_cons.mp hc).1)
    | isFalse ht, _ => isFalse (fun hc => ht (List.chain'_cons.mp hc).2)

/-- A 4-connected path of valid cells from `s` to `e`. -/
def IsPath (pf : Pathfinder) (s e : Coord) (p : List Coord) : Prop :=
  p.head? = some s ∧ p.getLast? = some e ∧ List.Chain' (StepOk pf) p ∧
  pf.is_valid s.1 s.2 = true

instance (pf : Pathfinder) (s e : Coord) (p : List Coord) : Decidable (IsPath pf s e p) :=
  inferInstanceAs (Decidable (p.head? = some s ∧ p.getLast? = some e ∧
    List.Chain' (StepOk pf) p ∧ pf.is_valid s.1 s.2 = true))

/-- `e` is reachable from `s` through valid cells. -/
def Reachable (pf : Pathfinder) (s e : Coord) : Prop :=
  ∃ p, IsPath pf s e p

/-! ## Spec-stated tie-breaking variant of the A* search

The spec says ties among equal-cost open nodes are broken "by search order
— first-discovered equal-cost node".  This variant implements exactly that
reading: heap entries carry a strictly increasing insertion counter and the
minimum is taken by `(priority, counter)`, everything else is identical to
`find_path`.  It exists to be compared against the source algorithm, whose
`heapq` entries are `(priority, (x, y))` and therefore tie-break by
coordinate order. -/

/-- Ordering on `(priority, counter, position)` entries: priority first,
then discovery order. -/
def entryLeFifo (a b : ℕ × ℕ × Coord) : Prop :=
  a.1 < b.1 ∨ (a.1 = b.1 ∧ a.2.1 ≤ b.2.1)

instance (a b : ℕ × ℕ × Coord) : Decidable (entryLeFifo a b) := by
  unfold entryLeFifo; infer_instance

/-- Pop the minimum by `(priority, counter)`. -/
def heapPopFifo : List (ℕ × ℕ × Coord) → Option ((ℕ × ℕ × Coord) × List (ℕ × ℕ × Coord))
  | [] => none
  | e :: rest =>
    match heapPopFifo rest with
    | none => some (e, [])
    | some (m, rest2) => if entryLeFifo e m then some (e, rest) else some (m, e :: rest2)

/-- Loop state of the first-discovered variant. -/
structure AStateFifo where
  frontier : List (ℕ × ℕ × Coord)
  ctr : ℕ
  cameFrom : Coord → Option (Option Coord)
  cost : Coord → Option ℕ

/-- Neighbour relaxation of the first-discovered variant. -/
def relaxFifo (pf : Pathfinder) (goal cur : Coord) (st : AStateFifo) (nxt : Coord) : AStateFifo :=
  let newCost := (st.cost cur).getD 0 + 1
  let push : AStateFifo :=
    { frontier := (newCost + pf.heuristic nxt goal, st.ctr, nxt) :: st.frontier,
      ctr := st.ctr + 1,
      cameFrom := Function.update st.cameFrom nxt (some (some cur)),
      cost := Function.update st.cost nxt (some newCost) }
  match st.cost nxt with
  | some old => if newCost < old then push else st
  | none => push

/-- Main loop of the first-discovered variant. -/
def astarLoopFifo (pf : Pathfinder) (goal : Coord) : ℕ → AStateFifo → Option (Option (List Coord))
  | 0, _ => none
  | fuel + 1, st =>
    match heapPopFifo st.frontier with
    | none => some none
    | some ((_, _, cur), rest) =>
      if cur = goal then
        some (reconstruct st.cameFrom (pf.cellCount + 1) cur [])
      else
        astarLoopFifo pf goal fuel
          (List.foldl (relaxFifo pf goal cur) { st with frontier := rest } (pf.get_neighbors cur))

/-- `findPath` as the spec's tie-breaking sentence describes it. -/
def findPathFifo (pf : Pathfinder) (s goal : Coord) : Option (List Coord) :=
  if !(pf.is_valid s.1 s.2) || !(pf.is_valid goal.1 goal.2) then none
  else Option.join (astarLoopFifo pf goal pf.fuelBound
    { frontier := [(0, 0, s)], ctr := 1,
      cameFrom := Function.update (fun _ => none) s (some none),
      cost := Function.update (fun _ => none) s (some 0) })

/-! ## Enemies (`src/game/entities/enemy.py`)

Positions and hit points are Python floats; they are embedded as real
numbers, so the per-tick updates are `noncomputable` (they use `sqrt` and
division) but all discrete branching is preserved exactly. -/

/-- The closed set of enemy type tags `create_enemy` accepts; the wave
manager's spawn queue only ever contains these two. -/
inductive EnemyKind
  | walker
  | runner
deriving DecidableEq, Repr

/-- `Grid.grid_to_screen` with the `config.py` layout constants
(`TILE_SIZE = 32`, offsets `50`): the centre pixel of a tile. -/
def gridToScreen (c : Coord) : ℤ × ℤ :=
  (50 + c.1 * 32 + 16, 50 + c.2 * 32 + 16)

/-- State of an `Enemy` (rendering-only fields `color`, `radius` omitted;
the `grid` reference is replaced by the fixed `gridToScreen` transform). -/
structure Enemy where
  kind : EnemyKind
  max_hp : ℝ
  hp : ℝ
  speed : ℝ
  reward : ℤ
  path : List Coord
  path_index : ℕ
  x : ℝ
  y : ℝ
  alive : Bool
  reached_end : Bool
  slow_factor : ℝ
  slow_timer : ℝ

/-- `Enemy._get_path_pos`: clamp the index to the last waypoint and convert
to screen coordinates.  An empty path raises `IndexError` in Python; the
wave manager only constructs enemies with a nonempty path, and the `(0, 0)`
default is never consulted there. -/
def Enemy.get_path_pos (e : Enemy) (index : ℕ) : ℝ × ℝ :=
  let j := if index ≥ e.path.length then e.path.length - 1 else index
  let c := gridToScreen (e.path.getD j (0, 0))
  ((c.1 : ℝ), (c.2 : ℝ))

open Classical in
/-- `Enemy.take_damage`. -/
noncomputable def Enemy.take_damage (e : Enemy) (damage : ℝ) : Enemy :=
  if e.hp - damage ≤ 0 then { e with hp := e.hp - damage, alive := false }
  else { e with hp := e.hp - damage }

/-- `Enemy.apply_slow`. -/
def Enemy.apply_slow (e : Enemy) (factor duration : ℝ) : Enemy :=
  { e with slow_factor := factor, slow_timer := duration }

open Classical in
/-- `Enemy.update`: one tick of waypoint-following movement. -/
noncomputable def Enemy.update (e : Enemy) (dt : ℝ) : Enemy :=
  if ¬(e.alive = true) ∨ e.reached_end = true then e
  else
    let e1 :=
      if 0 < e.slow_timer then
        let t := e.slow_timer - dt
        if t ≤ 0 then { e with slow_timer := t, slow_factor := 1 }
        else { e with slow_timer := t }
      else e
    if ((e1.path.length : ℤ) - 1) ≤ (e1.path_index : ℤ) then
      { e1 with reached_end := true, alive := false }
    else
      let tgt := e1.get_path_pos (e1.path_index + 1)
      let dx := tgt.1 - e1.x
      let dy := tgt.2 - e1.y
      let dist := Real.sqrt (dx ^ 2 + dy ^ 2)
      if dist < 2 then { e1 with path_index := e1.path_index + 1 }
      else
        let move := e1.speed * e1.slow_factor * dt
        if dist ≤ move then
          { e1 with x := tgt.1, y := tgt.2, path_index := e1.path_index + 1 }
        else
          { e1 with x := e1.x + dx / dist * move, y := e1.y + dy / dist * move }

/-- `create_enemy` with the `config.py` stats (`walker`: hp 30, speed
1.5 tiles/s ⇒ 48 px/s, reward 5; `runner`: hp 15, speed 3.0 ⇒ 96, reward
8). -/
def create_enemy (k : EnemyKind) (path : List Coord) : Enemy :=
  let hp : ℝ := match k with | EnemyKind.walker => 30 | EnemyKind.runner => 15
  let speed : ℝ := match k with | EnemyKind.walker => 48 | EnemyKind.runner => 96
  let reward : ℤ := match k with | EnemyKind.walker => 5 | EnemyKind.runner => 8
  let c := gridToScreen (path.getD 0 (0, 0))
  { kind := k, max_hp := hp, hp := hp, speed := speed, reward := reward,
    path := path, path_index := 0, x := (c.1 : ℝ), y := (c.2 : ℝ),
    alive := true, reached_end := false, slow_factor := 1, slow_timer := 0 }

/-- A sequence element for the enemy lifecycle claims: one `update` or one
`take_damage` call. -/
inductive EnemyOp
  | upd (dt : ℝ)
  | dmg (damage : ℝ)

/-- Apply one lifecycle call. -/
noncomputable def applyEnemyOp (e : Enemy) : EnemyOp → Enemy
  | EnemyOp.upd dt => e.update dt
  | EnemyOp.dmg d => e.take_damage d

/-- Apply a sequence of lifecycle calls. -/
noncomputable def applyEnemyOps (e : Enemy) (ops : List EnemyOp) : Enemy :=
  ops.foldl applyEnemyOp e

/-! ## Projectiles (`src/game/entities/projectile.py`) -/

/-- State of a `Projectile` (rendering-only `radius`, `colors`, `color`
omitted).  The Python object's `target` reference is the `Option Enemy`
argument of `update`: `none` is a `None`/falsy target. -/
structure Projectile where
  x : ℝ
  y : ℝ
  damage : ℝ
  speed : ℝ
  projectile_type : String
  alive : Bool

open Classical in
/-- `Projectile.update`: homing advance toward the target's current
position; returns the updated projectile and the (possibly damaged)
target. -/
noncomputable def Projectile.update (p : Projectile) (target : Option Enemy) (dt : ℝ) :
    Projectile × Option Enemy :=
  if ¬(p.alive = true) then (p, target)
  else
    match target with
    | none => ({ p with alive := false }, none)
    | some t =>
      if ¬(t.alive = true) then ({ p with alive := false }, some t)
      else
        let dx := t.x - p.x
        let dy := t.y - p.y
        let dist := Real.sqrt (dx ^ 2 + dy ^ 2)
        if dist < 5 then ({ p with alive := false }, some (t.take_damage p.damage))
        else if 0 < dist then
          let move := p.speed * 60 * dt
          if dist ≤ move then ({ p with x := t.x, y := t.y }, some t)
          else ({ p with x := p.x + dx / dist * move, y := p.y + dy / dist * move }, some t)
        else (p, some t)

/-! ## Wave manager (`src/game/systems/wave_manager.py`) -/

/-- `config.py` `WAVES` table (only its length matters to `update`). -/
def WAVES : List (ℕ × ℕ × ℤ) :=
  [(5, 0, 1000), (8, 2, 800), (12, 5, 700), (15, 10, 600), (20, 15, 500)]

/-- State of `WaveManager.__init__` (the `grid` reference is replaced by
passing the grid's current path to `update`). -/
structure WaveManager where
  current_wave : ℕ
  spawning : Bool
  spawn_queue : List EnemyKind
  spawn_delay : ℤ
  last_spawn_time : ℤ
  enemies : List Enemy
  wave_in_progress : Bool
  wave_start_time : ℤ

/-- The events dictionary `WaveManager.update` returns.  The
`enemy_killed` / `enemy_reached_end` keys are only ever created by
assignment inside the removal loop; `none` models the absent key. -/
structure WaveEvents where
  enemy_spawned : Option Enemy
  wave_complete : Bool
  all_complete : Bool
  enemy_killed : Option Enemy
  enemy_reached_end : Option Enemy

/-- The events dictionary as first constructed. -/
def WaveEvents.init : WaveEvents :=
  { enemy_spawned := none, wave_complete := false, all_complete := false,
    enemy_killed := none, enemy_reached_end := none }

/-- Spawn phase of `WaveManager.update` (lines 74-86): pop and instantiate
one queued enemy when the delay has elapsed. -/
def WaveManager.spawnPhase (wm : WaveManager) (current_time : ℤ) (gridPath : List Coord) :
    WaveManager × Option Enemy :=
  if wm.spawning = true ∧ wm.spawn_queue ≠ [] then
    if wm.spawn_delay ≤ current_time - wm.last_spawn_time then
      match wm.spawn_queue with
      | [] => (wm, none)
      | ty :: rest =>
        let (enemies2, ev) :=
          if gridPath ≠ [] then
            (wm.enemies ++ [create_enemy ty gridPath], some (create_enemy ty gridPath))
          else (wm.enemies, none)
        ({ wm with spawn_queue := rest, enemies := enemies2,
                   last_spawn_time := current_time,
                   spawning := if rest = [] then false else wm.spawning }, ev)
    else (wm, none)
  else (wm, none)

/-- One iteration of the removal loop (lines 89-97): update the enemy, keep
it if alive, otherwise record it under the event key its flags select
(assignment overwrites the previous value of the key). -/
noncomputable def sweepStep (dt : ℝ) (acc : List Enemy × Option Enemy × Option Enemy)
    (e : Enemy) : List Enemy × Option Enemy × Option Enemy :=
  let e2 := e.update dt
  if e2.alive = true then (acc.1 ++ [e2], acc.2.1, acc.2.2)
  else if e2.reached_end = true then (acc.1, acc.2.1, some e2)
  else (acc.1, some e2, acc.2.2)

/-- The removal loop over all live enemies: returns the surviving list, the
final `enemy_killed` value and the final `enemy_reached_end` value. -/
noncomputable def enemySweep (dt : ℝ) (enemies : List Enemy) :
    List Enemy × Option Enemy × Option Enemy :=
  enemies.foldl (sweepStep dt) ([], none, none)

open Classical in
/-- `WaveManager.update`. -/
noncomputable def WaveManager.update (wm : WaveManager) (dt : ℝ) (current_time : ℤ)
    (gridPath : List Coord) : WaveManager × WaveEvents :=
  if ¬(wm.wave_in_progress = true) then (wm, WaveEvents.init)
  else
    let wm1 := if wm.wave_start_time = 0 then { wm with wave_start_time := current_time } else wm
    let sp := wm1.spawnPhase current_time gridPath
    let wm2 := sp.1
    let sw := enemySweep dt wm2.enemies
    let wm3 := { wm2 with enemies := sw.1 }
    let ev1 : WaveEvents :=
      { enemy_spawned := sp.2, wave_complete := false, all_complete := false,
        enemy_killed := sw.2.1, enemy_reached_end := sw.2.2 }
    if ¬(wm3.spawning = true) ∧ wm3.enemies = [] then
      ({ wm3 with wave_in_progress := false },
       { ev1 with wave_complete := true,
                  all_complete := decide (WAVES.length ≤ wm3.current_wave) })
    else (wm3, ev1)

/-- The live-enemy list after the start-time fix and the spawn phase of
`WaveManager.update`, i.e. the list the removal loop iterates over. -/
def WaveManager.postSpawnEnemies (wm : WaveManager) (current_time : ℤ)
    (gridPath : List Coord) : List Enemy :=
  (((if wm.wave_start_time = 0 then { wm with wave_start_time := current_time } else wm)).spawnPhase
    current_time gridPath).1.enemies

/-- The enemy invariant of the lifecycle claims: an arrived enemy is not
alive. -/
def EnemyInv (e : Enemy) : Prop :=
  e.reached_end = true → e.alive = false

/-- Specification vocabulary for the event dictionary: the value a key
holds after a run of overwriting assignments — the last assigned value, or
the previous contents when nothing was assigned. -/
def lastOr {α : Type} (o dflt : Option α) : Option α :=
  match o with
  | some x => some x
  | none => dflt

/-- Concrete instances for the per-tick event claims: two enemies that are
already dead (killed by damage earlier in the frame) when the wave manager
sweeps them. -/
def c5enemyA : Enemy :=
  { create_enemy EnemyKind.walker [(0, 0), (1, 0)] with alive := false }

/-- Second dead enemy of the C5 scenario. -/
def c5enemyB : Enemy :=
  { create_enemy EnemyKind.runner [(0, 0), (1, 0)] with alive := false }

/-- A mid-wave manager state holding the two dead enemies of the C5
scenario. -/
def c5wave : WaveManager :=
  { current_wave := 5, spawning := false, spawn_queue := [], spawn_delay := 1000,
    last_spawn_time := 0, enemies := [c5enemyA, c5enemyB],
    wave_in_progress := true, wave_start_time := 5 }

/-- An enemy of the C6 scenario, killed through `take_damage`. -/
noncomputable def c6enemyA : Enemy :=
  (create_enemy EnemyKind.walker [(0, 0), (1, 0)]).take_damage 31

/-- Second damaged-to-death enemy of the C6 scenario. -/
noncomputable def c6enemyB : Enemy :=
  (create_enemy EnemyKind.runner [(0, 0), (1, 0)]).take_damage 16

/-- A mid-wave manager state holding the two enemies of the C6 scenario. -/
noncomputable def c6wave : WaveManager :=
  { current_wave := 5, spawning := false, spawn_queue := [], spawn_delay := 1000,
    last_spawn_time := 0, enemies := [c6enemyA, c6enemyB],
    wave_in_progress := true, wave_start_time := 5 }

/-- Walks through valid cells: `Steps pf a b n` says `b` is reachable from
`a` in exactly `n` valid 4-neighbour moves.  This is the inductive
counterpart of `IsPath` used by the search proofs. -/
inductive Steps (pf : Pathfinder) : Coord → Coord → ℕ → Prop
  | refl (c : Coord) : pf.is_valid c.1 c.2 = true → Steps pf c c 0
  | tail (a b c : Coord) (n : ℕ) : Steps pf a b n → StepOk pf b c → Steps pf a c (n + 1)

/-- Graph distance between two cells: the least number of moves of a
valid walk (junk value `0` when unreachable, by `Nat.sInf` convention). -/
noncomputable def gdist (pf : Pathfinder) (a b : Coord) : ℕ :=
  sInf { n | Steps pf a b n }

/-- The finite set of valid cells. -/
def Pathfinder.validCells (pf : Pathfinder) : Finset Coord :=
  ((Finset.Icc 0 (pf.width - 1)) ×ˢ (Finset.Icc 0 (pf.height - 1))).filter
    (fun c => pf.is_valid c.1 c.2)

/-- Number of discovered cells of a loop state. -/
def keyCard (pf : Pathfinder) (st : AState) : ℕ :=
  (pf.validCells.filter (fun c => (st.cost c).isSome)).card

/-- Termination potential: undiscovered cells count `cellCount`, discovered
cells count their current best cost (which only ever decreases). -/
def phi (pf : Pathfinder) (st : AState) : ℕ :=
  pf.validCells.sum (fun c => (st.cost c).getD pf.cellCount)

/-- Lexicographic-free termination measure of the A* loop: every iteration
strictly decreases it. -/
def mu (pf : Pathfinder) (st : AState) : ℕ :=
  2 * phi pf st + st.frontier.length

/-- Cover property of one discovered cell: either a pending frontier entry
at most its f-value, or all its neighbours already discovered at most one
step more expensive. -/
def CoverAt (pf : Pathfinder) (goal : Coord) (st : AState) (c : Coord) (v : ℕ) : Prop :=
  (∃ p, (p, c) ∈ st.frontier ∧ p ≤ v + pf.heuristic c goal) ∨
  (∀ n ∈ pf.get_neighbors c, ∃ vn, st.cost n = some vn ∧ vn ≤ v + 1)

/-- The A* loop invariant, parameterised by an optional cell whose cover
obligation is suspended (the cell just popped, before its neighbours have
been relaxed). -/
structure AInvE (pf : Pathfinder) (s goal : Coord) (st : AState) (ex : Option Coord) :
    Prop where
  start_cost : st.cost s = some 0
  start_valid : pf.is_valid s.1 s.2 = true
  cost_sound : ∀ c v, st.cost c = some v → Steps pf s c v
  parent_start : st.cameFrom s = some none
  parent_none : ∀ c, st.cameFrom c = some none → c = s
  dom_eq : ∀ c, (st.cost c).isSome = (st.cameFrom c).isSome
  parent_link : ∀ c pc, st.cameFrom c = some (some pc) →
    ∃ vc vp, st.cost c = some vc ∧ st.cost pc = some vp ∧ vp < vc ∧ StepOk pf pc c
  frontier_low : ∀ p c, (p, c) ∈ st.frontier →
    ∃ v, st.cost c = some v ∧ (v + pf.heuristic c goal ≤ p ∨ (c = s ∧ p = 0))
  cover : ∀ c v, st.cost c = some v → some c ≠ ex → CoverAt pf goal st c v
  goal_pending : ∀ v, st.cost goal = some v →
    ∃ p, (p, goal) ∈ st.frontier ∧ p ≤ v + pf.heuristic goal goal
  value_bound : ∀ c v, st.cost c = some v → v + 1 ≤ keyCard pf st

/-- The full A* loop invariant: no suspended cover obligation. -/
def AInv (pf : Pathfinder) (s goal : Coord) (st : AState) : Prop :=
  AInvE pf s goal st none

/-- A concrete 3x3 grid with one tower at `(2, 0)`, used by the
out-of-bounds claims: anchors `(0, 1)` and `(2, 1)`. -/
def gW : GridState :=
  { width := 3, height := 3,
    cells := [[none, none, none], [none, none, none], [some "rifleman", none, none]],
    towers := [((2, 0), 7)],
    obstacles := {(2, 0)},
    start_pos := (0, 1), end_pos := (2, 1),
    current_path := [(0, 1), (1, 1), (2, 1)],
    decorations := [[none, none, none], [none, none, none], [none, none, none]] }

/-- A concrete empty 3x3 grid used as witness input for the placement
validation claim. -/
def g3 : GridState :=
  { width := 3, height := 3,
    cells := [[none, none, none], [none, none, none], [none, none, none]],
    towers := [],
    obstacles := ∅,
    start_pos := (0, 1), end_pos := (2, 1),
    current_path := [(0, 1), (1, 1), (2, 1)],
    decorations := [[none, none, none], [none, none, none], [none, none, none]] }

/-- A `Grid.__init__` outcome with the `config.py` constants and the empty
decoration draw: the 30×20 grid with anchors `(0, 10)` and `(29, 10)`. -/
def g30 : GridState :=
  { width := 30, height := 20,
    cells := List.replicate 30 (List.replicate 20 none),
    towers := [],
    obstacles := ∅,
    start_pos := (0, 10), end_pos := (29, 10),
    current_path := ((Pathfinder.mk 30 20 ∅).find_path (0, 10) (29, 10)).getD [],
    decorations := List.replicate 30 (List.replicate 20 none) }

/-! # Theorems -/

/-- `spend` on insufficient funds mutates nothing. -/
theorem spend_insufficient (e : Economy) (amount : ℤ) (h : e.money < amount) :
    e.spend amount = (e, false) := by
  unfold Economy.spend Economy.can_afford
  simp [not_le.mpr h]

/-- `spend` on sufficient funds: returns `true`, moves exactly `amount`
from `money` to `total_spent`, touches nothing else. -/
theorem spend_sufficient (e : Economy) (amount : ℤ) (h : amount ≤ e.money) :
    e.spend amount =
      ({ e with money := e.money - amount, total_spent := e.total_spent + amount }, true) := by
  unfold Economy.spend Economy.can_afford
  simp [ge_iff_le, h]

/-- C8.  Economy spend law: `spend(amount)` returns `false` and changes no
field when `money < amount`, and otherwise returns `true`, decreases
`money` by exactly `amount` and increases `total_spent` by exactly
`amount`; on the concrete trace starting from `money = 100`: `spend 150`
fails leaving 100, `spend 50` leaves `money = 50`, `total_spent = 50`,
then `earn 30` leaves `money = 80`, `total_earned = 30`. -/
theorem economy_spend_law :
    (∀ (e : Economy) (amount : ℤ), e.money < amount → e.spend amount = (e, false)) ∧
    (∀ (e : Economy) (amount : ℤ), amount ≤ e.money →
      (e.spend amount).2 = true ∧
      (e.spend amount).1.money = e.money - amount ∧
      (e.spend amount).1.total_spent = e.total_spent + amount ∧
      (e.spend amount).1.lives = e.lives ∧
      (e.spend amount).1.total_earned = e.total_earned ∧
      (e.spend amount).1.max_lives = e.max_lives ∧
      (e.spend amount).1.enemies_killed = e.enemies_killed ∧
      (e.spend amount).1.waves_completed = e.waves_completed) ∧
    (({ Economy.init with money := 100 } : Economy).spend 150 =
        ({ Economy.init with money := 100 }, false) ∧
      (({ Economy.init with money := 100 } : Economy).spend 50).1.money = 50 ∧
      (({ Economy.init with money := 100 } : Economy).spend 50).1.total_spent = 50 ∧
      ((({ Economy.init with money := 100 } : Economy).spend 50).1.earn 30).money = 80 ∧
      ((({ Economy.init with money := 100 } : Economy).spend 50).1.earn 30).total_earned = 30) := by
  refine ⟨fun e amount h => spend_insufficient e amount h, fun e amount h => ?_, by decide⟩
  rw [spend_sufficient e amount h]
  simp

/-- C8 witness: the spend law applied at concrete states. -/
theorem economy_spend_law_witness :
    Economy.init.spend 200 = (Economy.init, false) ∧
    (Economy.init.spend 50).2 = true ∧ (Economy.init.spend 50).1.money = 100 :=
  ⟨economy_spend_law.1 Economy.init 200 (by decide),
   (economy_spend_law.2.1 Economy.init 50 (by decide)).1,
   by
    have h := (economy_spend_law.2.1 Economy.init 50 (by decide)).2.1
    rw [h]; decide⟩

/-- C7.  Projectile-target-death race: a live projectile whose target is
absent or not alive at the start of `update` is discarded (alive set to
`false`) with the target state untouched and no damage dealt (the update
is a total function: no exception); a live projectile within the impact
epsilon (distance < 5) of its living target applies exactly its stored
damage once (`take_damage` of `damage`, so `hp` drops by exactly
`damage`) and is discarded. -/
theorem projectile_update_contract :
    ∀ (p : Projectile) (dt : ℝ), p.alive = true →
      (p.update none dt = ({ p with alive := false }, none)) ∧
      (∀ t : Enemy, t.alive = false →
        p.update (some t) dt = ({ p with alive := false }, some t)) ∧
      (∀ t : Enemy, t.alive = true →
        Real.sqrt ((t.x - p.x) ^ 2 + (t.y - p.y) ^ 2) < 5 →
        p.update (some t) dt = ({ p with alive := false }, some (t.take_damage p.damage)) ∧
        (t.take_damage p.damage).hp = t.hp - p.damage) := by
  intro p dt hp
  refine ⟨?_, ?_, ?_⟩
  · unfold Projectile.update
    simp [hp]
  · intro t ht
    unfold Projectile.update
    simp [hp, ht]
  · intro t ht hdist
    constructor
    · unfold Projectile.update
      simp [hp, ht, hdist]
    · unfold Enemy.take_damage
      by_cases h : t.hp - p.damage ≤ 0 <;> simp [h]

/-- C7 witness: a dead walker target and an in-range living target, at
concrete coordinates. -/
theorem projectile_update_contract_witness :
    (Projectile.mk 66 66 10 5 "bullet" true).update
        (some { create_enemy EnemyKind.walker [(0, 0)] with alive := false }) 1 =
      ({ Projectile.mk 66 66 10 5 "bullet" true with alive := false },
        some { create_enemy EnemyKind.walker [(0, 0)] with alive := false }) ∧
    (Projectile.mk 66 66 10 5 "bullet" true).update
        (some (create_enemy EnemyKind.walker [(0, 0)])) 1 =
      ({ Projectile.mk 66 66 10 5 "bullet" true with alive := false },
        some ((create_enemy EnemyKind.walker [(0, 0)]).take_damage 10)) := by
  constructor
  · exact (projectile_update_contract _ 1 rfl).2.1 _ rfl
  · refine ((projectile_update_contract _ 1 rfl).2.2 _ rfl ?_).1
    have hx : (create_enemy EnemyKind.walker [(0, 0)]).x = (66 : ℝ) := by
      simp [create_enemy, gridToScreen]
    have hy : (create_enemy EnemyKind.walker [(0, 0)]).y = (66 : ℝ) := by
      simp [create_enemy, gridToScreen]
    rw [hx, hy]
    norm_num [Real.sqrt_zero]

/-- `take_damage` never touches `reached_end`. -/
theorem take_damage_reached (e : Enemy) (d : ℝ) :
    (e.take_damage d).reached_end = e.reached_end := by
  unfold Enemy.take_damage
  split_ifs <;> rfl

/-- `take_damage` preserves the lifecycle invariant. -/
theorem take_damage_inv (e : Enemy) (d : ℝ) (h : EnemyInv e) : EnemyInv (e.take_damage d) := by
  unfold EnemyInv at h ⊢
  unfold Enemy.take_damage
  split_ifs <;> simp_all

/-- One `update` step either leaves both lifecycle flags unchanged or sets
`reached_end` and clears `alive` together. -/
theorem enemy_update_flags (e : Enemy) (dt : ℝ) :
    ((e.update dt).reached_end = e.reached_end ∧ (e.update dt).alive = e.alive) ∨
    ((e.update dt).reached_end = true ∧ (e.update dt).alive = false) := by
  unfold Enemy.update
  dsimp only
  split_ifs <;> simp

/-- `update` preserves the lifecycle invariant: the only branch that sets
`reached_end` also clears `alive`, and every other branch leaves both
flags unchanged. -/
theorem enemy_update_inv (e : Enemy) (dt : ℝ) (h : EnemyInv e) : EnemyInv (e.update dt) := by
  unfold EnemyInv at h ⊢
  intro hre
  rcases enemy_update_flags e dt with ⟨h1, h2⟩ | ⟨h1, h2⟩
  · rw [h2]; exact h (h1 ▸ hre)
  · exact h2

/-- Any single lifecycle call preserves the invariant. -/
theorem applyEnemyOp_inv (e : Enemy) (op : EnemyOp) (h : EnemyInv e) :
    EnemyInv (applyEnemyOp e op) := by
  cases op with
  | upd dt => exact enemy_update_inv e dt h
  | dmg d => exact take_damage_inv e d h

/-- Any sequence of lifecycle calls preserves the invariant. -/
theorem applyEnemyOps_inv (e : Enemy) (ops : List EnemyOp) (h : EnemyInv e) :
    EnemyInv (applyEnemyOps e ops) := by
  induction ops generalizing e with
  | nil => exact h
  | cons op tl ih => exact ih _ (applyEnemyOp_inv e op h)

/-- C10.  Implicit lifecycle invariant: along every sequence of
`update`/`take_damage` calls on a freshly created enemy, `reached_end`
implies `alive = false`; `take_damage` never sets `reached_end`; and the
`update` branch that detects the final path index sets `reached_end` and
clears `alive` in the same step. -/
theorem enemy_reached_end_implies_dead :
    (∀ (k : EnemyKind) (path : List Coord) (ops : List EnemyOp),
      EnemyInv (applyEnemyOps (create_enemy k path) ops)) ∧
    (∀ (e : Enemy) (d : ℝ), (e.take_damage d).reached_end = e.reached_end) ∧
    (∀ (e : Enemy) (dt : ℝ), e.alive = true → e.reached_end = false →
      ((e.path.length : ℤ) - 1) ≤ (e.path_index : ℤ) →
      (e.update dt).reached_end = true ∧ (e.update dt).alive = false) := by
  refine ⟨?_, take_damage_reached, ?_⟩
  · intro k path ops
    apply applyEnemyOps_inv
    intro hre
    simp [create_enemy] at hre
  · intro e dt halive hreach hend
    unfold Enemy.update
    dsimp only
    split_ifs <;> simp_all

/-- C10 witness: a damaged walker satisfies the invariant, and a runner
standing on a one-waypoint path arrives and dies in the same step. -/
theorem enemy_reached_end_implies_dead_witness :
    EnemyInv (applyEnemyOps (create_enemy EnemyKind.walker [(0, 0)]) [EnemyOp.dmg 31]) ∧
    ((create_enemy EnemyKind.runner [(3, 3)]).update 1).reached_end = true ∧
    ((create_enemy EnemyKind.runner [(3, 3)]).update 1).alive = false :=
  ⟨enemy_reached_end_implies_dead.1 EnemyKind.walker [(0, 0)] [EnemyOp.dmg 31],
   (enemy_reached_end_implies_dead.2.2 _ 1 rfl rfl (by simp [create_enemy])).1,
   (enemy_reached_end_implies_dead.2.2 _ 1 rfl rfl (by simp [create_enemy])).2⟩

/-- `update` is the identity on an enemy that is already not alive. -/
theorem enemy_update_dead (e : Enemy) (dt : ℝ) (h : e.alive = false) : e.update dt = e := by
  unfold Enemy.update
  rw [if_pos]
  left
  simp [h]

/-- Closed form of the removal loop: the fold keeps the updated enemies
that are alive (in order) and ends with each event key holding the last
dead enemy of the matching flag, or the accumulator's previous value. -/
theorem sweep_fold (dt : ℝ) (es : List Enemy) (l : List Enemy) (k r : Option Enemy) :
    es.foldl (sweepStep dt) (l, k, r) =
      (l ++ (es.map (fun e => e.update dt)).filter (fun e => e.alive),
       lastOr ((es.map (fun e => e.update dt)).filter
         (fun e => !e.alive && !e.reached_end)).getLast? k,
       lastOr ((es.map (fun e => e.update dt)).filter
         (fun e => !e.alive && e.reached_end)).getLast? r) := by
  induction es using List.reverseRecOn with
  | nil => simp [lastOr]
  | append_singleton tl e ih =>
    rw [List.foldl_append, ih]
    unfold sweepStep
    rcases ha : (e.update dt).alive with _ | _
    · rcases hr : (e.update dt).reached_end with _ | _
      · simp [ha, hr, List.filter_append, List.getLast?_concat, lastOr]
      · simp [ha, hr, List.filter_append, List.getLast?_concat, lastOr]
    · simp [ha, List.filter_append, List.getLast?_concat, lastOr]

/-- The removal loop over the whole live list. -/
theorem enemySweep_spec (dt : ℝ) (es : List Enemy) :
    enemySweep dt es =
      ((es.map (fun e => e.update dt)).filter (fun e => e.alive),
       ((es.map (fun e => e.update dt)).filter (fun e => !e.alive && !e.reached_end)).getLast?,
       ((es.map (fun e => e.update dt)).filter (fun e => !e.alive && e.reached_end)).getLast?) := by
  have hnone : ∀ {α : Type} (o : Option α), lastOr o none = o := by
    intro α o; cases o <;> rfl
  unfold enemySweep
  rw [sweep_fold]
  simp [hnone]

/-- `WaveManager.update` in terms of the spawn phase and the removal
loop. -/
theorem wave_update_decomp (wm : WaveManager) (dt : ℝ) (ct : ℤ) (gridPath : List Coord)
    (h : wm.wave_in_progress = true) :
    (wm.update dt ct gridPath).1.enemies = (enemySweep dt (wm.postSpawnEnemies ct gridPath)).1 ∧
    (wm.update dt ct gridPath).2.enemy_killed =
      (enemySweep dt (wm.postSpawnEnemies ct gridPath)).2.1 ∧
    (wm.update dt ct gridPath).2.enemy_reached_end =
      (enemySweep dt (wm.postSpawnEnemies ct gridPath)).2.2 := by
  unfold WaveManager.update WaveManager.postSpawnEnemies
  rw [if_neg (by simp [h])]
  simp [apply_ite]

/-- Closed form of `WaveManager.update` for an in-progress wave: live set
and both death-event keys in terms of the post-spawn list.  Shared helper
for the per-tick event theorems below. -/
theorem wave_update_closed_form (wm : WaveManager) (dt : ℝ) (ct : ℤ) (gridPath : List Coord)
    (h : wm.wave_in_progress = true) :
    ((wm.update dt ct gridPath).1.enemies =
      ((wm.postSpawnEnemies ct gridPath).map (fun e => e.update dt)).filter
        (fun e => e.alive)) ∧
    ((wm.update dt ct gridPath).2.enemy_killed =
      (((wm.postSpawnEnemies ct gridPath).map (fun e => e.update dt)).filter
        (fun e => !e.alive && !e.reached_end)).getLast?) ∧
    ((wm.update dt ct gridPath).2.enemy_reached_end =
      (((wm.postSpawnEnemies ct gridPath).map (fun e => e.update dt)).filter
        (fun e => !e.alive && e.reached_end)).getLast?) := by
  obtain ⟨h1, h2, h3⟩ := wave_update_decomp wm dt ct gridPath h
  rw [enemySweep_spec] at h1 h2 h3
  dsimp only at h1 h2 h3
  exact ⟨h1, h2, h3⟩

/-- `take_damage` that brings hp to 0 or below clears `alive` and touches
neither `reached_end` nor `kind`. -/
theorem take_damage_kills (e : Enemy) (d : ℝ) (h : e.hp - d ≤ 0) :
    (e.take_damage d).alive = false ∧ (e.take_damage d).reached_end = e.reached_end ∧
    (e.take_damage d).kind = e.kind := by
  unfold Enemy.take_damage
  simp [h]

/-- C5 (amended).  Per-tick sweep: in every in-progress tick, the post-tick
live set keeps exactly the updated enemies that are still alive (so every
enemy that died or arrived this tick is removed that same tick), but the
events dictionary reports at most one `enemy_killed` and at most one
`enemy_reached_end` — the last-processed dead enemy of each flag — because
each later death overwrites the same dictionary key. -/
theorem wave_update_events (wm : WaveManager) (dt : ℝ) (ct : ℤ) (gridPath : List Coord)
    (h : wm.wave_in_progress = true) :
    ((wm.update dt ct gridPath).1.enemies =
      ((wm.postSpawnEnemies ct gridPath).map (fun e => e.update dt)).filter
        (fun e => e.alive)) ∧
    ((wm.update dt ct gridPath).2.enemy_killed =
      (((wm.postSpawnEnemies ct gridPath).map (fun e => e.update dt)).filter
        (fun e => !e.alive && !e.reached_end)).getLast?) ∧
    ((wm.update dt ct gridPath).2.enemy_reached_end =
      (((wm.postSpawnEnemies ct gridPath).map (fun e => e.update dt)).filter
        (fun e => !e.alive && e.reached_end)).getLast?) ∧
    (∀ e ∈ (wm.postSpawnEnemies ct gridPath).map (fun e => e.update dt),
      e.alive = false → e ∉ (wm.update dt ct gridPath).1.enemies) := by
  obtain ⟨h1, h2, h3⟩ := wave_update_closed_form wm dt ct gridPath h
  refine ⟨h1, h2, h3, ?_⟩
  intro e _ hdead hmem
  rw [h1] at hmem
  have := (List.mem_filter.mp hmem).2
  simp [hdead] at this

/-- C5 witness: the sweep characterisation applied to a concrete
in-progress wave state. -/
theorem wave_update_events_witness :
    (c5wave.update 1 10 []).1.enemies =
      ((c5wave.postSpawnEnemies 10 []).map (fun e => e.update 1)).filter
        (fun e => e.alive) :=
  (wave_update_events c5wave 1 10 [] rfl).1

/-- C5 counterexample: two enemies are dead in the same tick; both are
removed, but the events dictionary carries an `enemy_killed` entry only
for the second one — the first dead enemy generates no event at all,
refuting "exactly one `enemyKilled` event for each of the N killed
enemies". -/
theorem wave_update_events_counterexample :
    c5enemyA.alive = false ∧ c5enemyA.reached_end = false ∧
    c5enemyB.alive = false ∧ c5enemyB.reached_end = false ∧
    c5enemyA ≠ c5enemyB ∧
    (c5wave.update 1 10 []).1.enemies = [] ∧
    (c5wave.update 1 10 []).2.enemy_killed = some c5enemyB ∧
    (c5wave.update 1 10 []).2.enemy_reached_end = none := by
  have hA : c5enemyA.alive = false := rfl
  have hB : c5enemyB.alive = false := rfl
  have hrA : c5enemyA.reached_end = false := rfl
  have hrB : c5enemyB.reached_end = false := rfl
  have hne : c5enemyA ≠ c5enemyB := by
    intro hcontra
    have := congrArg Enemy.kind hcontra
    simp [c5enemyA, c5enemyB, create_enemy] at this
  have hpost : c5wave.postSpawnEnemies 10 [] = [c5enemyA, c5enemyB] := by
    unfold WaveManager.postSpawnEnemies WaveManager.spawnPhase c5wave
    norm_num
  obtain ⟨h1, h2, h3⟩ := wave_update_closed_form c5wave 1 10 [] rfl
  rw [hpost] at h1 h2 h3
  simp only [List.map_cons, List.map_nil, enemy_update_dead c5enemyA 1 hA,
    enemy_update_dead c5enemyB 1 hB] at h1 h2 h3
  refine ⟨hA, hrA, hB, hrB, hne, ?_, ?_, ?_⟩
  · rw [h1]; simp [hA, hB]
  · rw [h2]; simp [hA, hB, hrA, hrB]
  · rw [h3]; simp [hA, hB, hrA, hrB]

/-- C6 (amended).  Death reporting: `take_damage` to hp ≤ 0 clears `alive`
and never touches `reached_end`; a reported `enemy_killed` enemy is dead
with `reached_end = false` and is never simultaneously reported as
`enemy_reached_end`; every enemy still in the live set after a tick is
alive, so a swept (dead) enemy is gone and can never be reported again.
The dictionary key is overwritten by later deaths in the same tick, so the
reported enemy is the last-processed dead one, and an earlier death in the
same tick may produce no event (see the counterexample). -/
theorem wave_kill_reporting :
    (∀ (e : Enemy) (d : ℝ), e.hp - d ≤ 0 →
      (e.take_damage d).alive = false ∧ (e.take_damage d).reached_end = e.reached_end) ∧
    (∀ (wm : WaveManager) (dt : ℝ) (ct : ℤ) (gridPath : List Coord) (a : Enemy),
      wm.wave_in_progress = true →
      (wm.update dt ct gridPath).2.enemy_killed = some a →
      a.alive = false ∧ a.reached_end = false ∧
      (wm.update dt ct gridPath).2.enemy_reached_end ≠ some a) ∧
    (∀ (wm : WaveManager) (dt : ℝ) (ct : ℤ) (gridPath : List Coord) (e : Enemy),
      wm.wave_in_progress = true →
      e ∈ (wm.update dt ct gridPath).1.enemies → e.alive = true) := by
  refine ⟨?_, ?_, ?_⟩
  · intro e d hd
    exact ⟨(take_damage_kills e d hd).1, (take_damage_kills e d hd).2.1⟩
  · intro wm dt ct gridPath a h hk
    obtain ⟨h1, h2, h3⟩ := wave_update_closed_form wm dt ct gridPath h
    rw [h2] at hk
    have hmem := List.mem_of_mem_getLast? (show a ∈ _ from hk)
    have hflags := (List.mem_filter.mp hmem).2
    simp only [Bool.and_eq_true, Bool.not_eq_true'] at hflags
    refine ⟨hflags.1, hflags.2, ?_⟩
    intro hr
    rw [h3] at hr
    have hmem2 := List.mem_of_mem_getLast? (show a ∈ _ from hr)
    have hflags2 := (List.mem_filter.mp hmem2).2
    simp only [Bool.and_eq_true, Bool.not_eq_true'] at hflags2
    rw [hflags.2] at hflags2
    exact Bool.false_ne_true hflags2.2
  · intro wm dt ct gridPath e h hmem
    obtain ⟨h1, _, _⟩ := wave_update_closed_form wm dt ct gridPath h
    rw [h1] at hmem
    exact (List.mem_filter.mp hmem).2

/-- C6 witness: the reporting properties applied at a concrete damaged
walker and a concrete tick. -/
theorem wave_kill_reporting_witness :
    ((create_enemy EnemyKind.walker [(0, 0)]).take_damage 31).alive = false ∧
    ((create_enemy EnemyKind.walker [(0, 0)]).take_damage 31).reached_end =
      (create_enemy EnemyKind.walker [(0, 0)]).reached_end ∧
    (∀ e ∈ (c6wave.update 1 10 []).1.enemies, e.alive = true) := by
  refine ⟨?_, ?_, ?_⟩
  · exact (wave_kill_reporting.1 _ 31 (by norm_num [create_enemy])).1
  · exact (wave_kill_reporting.1 _ 31 (by norm_num [create_enemy])).2
  · intro e he
    exact wave_kill_reporting.2.2 c6wave 1 10 [] e rfl he

/-- C6 counterexample: two enemies killed through `take_damage` are swept
in the same tick; the first killed enemy is removed but never reported —
neither `enemy_killed` (which holds the second enemy) nor
`enemy_reached_end` mention it — refuting "exactly one `enemyKilled`
event … in the tick it dies". -/
theorem wave_kill_reporting_counterexample :
    c6enemyA.alive = false ∧ c6enemyA.reached_end = false ∧
    (c6wave.update 1 10 []).1.enemies = [] ∧
    (c6wave.update 1 10 []).2.enemy_killed ≠ some c6enemyA ∧
    (c6wave.update 1 10 []).2.enemy_reached_end ≠ some c6enemyA := by
  have hcondA : (create_enemy EnemyKind.walker [(0, 0), (1, 0)]).hp - 31 ≤ 0 := by
    norm_num [create_enemy]
  have hcondB : (create_enemy EnemyKind.runner [(0, 0), (1, 0)]).hp - 16 ≤ 0 := by
    norm_num [create_enemy]
  have hA : c6enemyA.alive = false := (take_damage_kills _ _ hcondA).1
  have hB : c6enemyB.alive = false := (take_damage_kills _ _ hcondB).1
  have hrA : c6enemyA.reached_end = false := by
    rw [show c6enemyA.reached_end = _ from (take_damage_kills _ _ hcondA).2.1]; rfl
  have hrB : c6enemyB.reached_end = false := by
    rw [show c6enemyB.reached_end = _ from (take_damage_kills _ _ hcondB).2.1]; rfl
  have hkA : c6enemyA.kind = EnemyKind.walker := by
    rw [show c6enemyA.kind = _ from (take_damage_kills _ _ hcondA).2.2]; rfl
  have hkB : c6enemyB.kind = EnemyKind.runner := by
    rw [show c6enemyB.kind = _ from (take_damage_kills _ _ hcondB).2.2]; rfl
  have hne : c6enemyB ≠ c6enemyA := by
    intro hcontra
    have := congrArg Enemy.kind hcontra
    rw [hkA, hkB] at this
    simp at this
  have hpost : c6wave.postSpawnEnemies 10 [] = [c6enemyA, c6enemyB] := by
    unfold WaveManager.postSpawnEnemies WaveManager.spawnPhase c6wave
    norm_num
  obtain ⟨h1, h2, h3⟩ := wave_update_closed_form c6wave 1 10 [] rfl
  rw [hpost] at h1 h2 h3
  simp only [List.map_cons, List.map_nil, enemy_update_dead c6enemyA 1 hA,
    enemy_update_dead c6enemyB 1 hB] at h1 h2 h3
  refine ⟨hA, hrA, ?_, ?_, ?_⟩
  · rw [h1]; simp [hA, hB]
  · rw [h2]
    have hfil : List.filter (fun e => !e.alive && !e.reached_end) [c6enemyA, c6enemyB] =
        [c6enemyA, c6enemyB] := by
      simp [hA, hB, hrA, hrB]
    rw [hfil]
    simp [hne]
  · rw [h3]
    have hfil : List.filter (fun e => !e.alive && e.reached_end) [c6enemyA, c6enemyB] =
        [] := by
      simp [hA, hB, hrA, hrB]
    rw [hfil]
    simp

/-- In-range Python index. -/
theorem pyIdx_pos (len : ℕ) (i : ℤ) (h0 : 0 ≤ i) (h : i < (len : ℤ)) :
    pyIdx len i = some i.toNat := by
  unfold pyIdx
  rw [if_pos ⟨h0, h⟩]

/-- Beyond-range Python index raises. -/
theorem pyIdx_oob (len : ℕ) (i : ℤ) (h : (len : ℤ) ≤ i) : pyIdx len i = none := by
  unfold pyIdx
  rw [if_neg (by omega), if_neg (by omega)]

/-- Any index into an empty list raises. -/
theorem pyIdx_zero (i : ℤ) : pyIdx 0 i = none := by
  unfold pyIdx
  rw [if_neg (by omega), if_neg (by omega)]

/-- Negative in-range Python index wraps around from the end. -/
theorem pyIdx_neg (len : ℕ) (i : ℤ) (h0 : -(len : ℤ) ≤ i) (h : i < 0) :
    pyIdx len i = some (i + len).toNat := by
  unfold pyIdx
  rw [if_neg (by omega), if_pos ⟨h0, h⟩]

/-- In-range Python read. -/
theorem pyGet_pos {α : Type} (l : List α) (i : ℤ) (h0 : 0 ≤ i) (h : i < (l.length : ℤ)) :
    pyGet l i = l.get? i.toNat := by
  unfold pyGet
  rw [pyIdx_pos _ _ h0 h]
  rfl

/-- An in-range read on a well-formed matrix succeeds. -/
theorem pyGet2_wf {α : Type} (m : List (List α)) (w hgt : ℕ) (hm : m.length = w)
    (hrow : ∀ row ∈ m, row.length = hgt) (i j : ℤ) (hi0 : 0 ≤ i) (hiw : i < (w : ℤ))
    (hj0 : 0 ≤ j) (hjh : j < (hgt : ℤ)) :
    ∃ v, pyGet2 m i j = some v := by
  have hi : i.toNat < m.length := by omega
  have hrowget := List.get?_eq_get hi
  unfold pyGet2
  rw [pyGet_pos m i hi0 (by omega), hrowget]
  have hmem : m.get ⟨i.toNat, hi⟩ ∈ m := List.get_mem m _ hi
  have hlen := hrow _ hmem
  have hj : j.toNat < (m.get ⟨i.toNat, hi⟩).length := by omega
  rw [Option.some_bind, pyGet_pos _ j hj0 (by omega), List.get?_eq_get hj]
  exact ⟨_, rfl⟩

/-- C2.  Placement validation: on a well-formed grid at an in-bounds
coordinate, `is_valid_placement` succeeds (no exception) and returns
`false` exactly when the coordinate is the start anchor, the end anchor,
an occupied cell (tower in `cells` or decoration), or the hypothetical
obstacle set `obstacles ∪ {(gx, gy)}` — the trial set, which the check
queries without touching any committed field (the embedding's
`is_valid_placement` is a pure read) — has no path from start to end; and
a rejected `place_tower` returns the grid state unchanged. -/
theorem placement_validation (g : GridState) (gx gy : ℤ) (hwf : GridWF g)
    (hx0 : 0 ≤ gx) (hxw : gx < g.width) (hy0 : 0 ≤ gy) (hyh : gy < g.height) :
    (∃ b, g.is_valid_placement gx gy = some b ∧
      (b = false ↔ ((gx, gy) = g.start_pos ∨ (gx, gy) = g.end_pos ∨
        pyGet2 g.cells gx gy ≠ some none ∨
        pyGet2 g.decorations gx gy ≠ some none ∨
        (Pathfinder.mk g.width g.height (insert (gx, gy) g.obstacles)).has_path
          g.start_pos g.end_pos = false))) ∧
    (∀ (ty : String) (tid : ℕ) (g2 : GridState) (res : Bool),
      g.place_tower gx gy ty tid = some (g2, res) → res = false → g2 = g) := by
  obtain ⟨hc, hcl, hd, hdl⟩ := hwf
  obtain ⟨vc, hvc⟩ := pyGet2_wf g.cells g.width.toNat g.height.toNat hc hcl gx gy
    hx0 (by omega) hy0 (by omega)
  obtain ⟨vd, hvd⟩ := pyGet2_wf g.decorations g.width.toNat g.height.toNat hd hdl gx gy
    hx0 (by omega) hy0 (by omega)
  constructor
  · unfold GridState.is_valid_placement
    by_cases hanchor : (gx, gy) = g.start_pos ∨ (gx, gy) = g.end_pos
    · refine ⟨false, by rw [if_pos hanchor], ?_⟩
      constructor
      · intro _
        rcases hanchor with h | h
        · exact Or.inl h
        · exact Or.inr (Or.inl h)
      · intro _
        rfl
    · rw [if_neg hanchor, hvc]
      push_neg at hanchor
      rcases vc with _ | tower
      · rw [hvd]
        rcases vd with _ | dec
        · refine ⟨_, rfl, ?_⟩
          constructor
          · intro hfalse
            exact Or.inr (Or.inr (Or.inr (Or.inr hfalse)))
          · intro hdisj
            rcases hdisj with h | h | h | h | h
            · exact absurd h hanchor.1
            · exact absurd h hanchor.2
            · exact absurd rfl h
            · exact absurd rfl h
            · exact h
        · refine ⟨false, rfl, ?_⟩
          constructor
          · intro _
            refine Or.inr (Or.inr (Or.inr (Or.inl ?_)))
            simp
          · intro _
            rfl
      · refine ⟨false, rfl, ?_⟩
        constructor
        · intro _
          refine Or.inr (Or.inr (Or.inl ?_))
          simp
        · intro _
          rfl
  · intro ty tid g2 res hres hfalse
    subst hfalse
    unfold GridState.place_tower at hres
    rcases hiv : g.is_valid_placement gx gy with _ | b
    · rw [hiv] at hres; exact absurd hres (by simp)
    · rcases b with _ | _
      · rw [hiv] at hres
        simp at hres
        exact hres.symm
      · rw [hiv] at hres
        rcases hset : pySet2 g.cells gx gy (some ty) with _ | cells2 <;> rw [hset] at hres <;>
          simp at hres

/-- C2 witness: the validation contract applied at the in-bounds cell
`(1, 1)` of a concrete empty 3x3 grid. -/
theorem placement_validation_witness :
    (∃ b, g3.is_valid_placement 1 1 = some b ∧
      (b = false ↔ ((1, 1) = g3.start_pos ∨ (1, 1) = g3.end_pos ∨
        pyGet2 g3.cells 1 1 ≠ some none ∨
        pyGet2 g3.decorations 1 1 ≠ some none ∨
        (Pathfinder.mk g3.width g3.height (insert (1, 1) g3.obstacles)).has_path
          g3.start_pos g3.end_pos = false))) ∧
    (∀ (ty : String) (tid : ℕ) (g2 : GridState) (res : Bool),
      g3.place_tower 1 1 ty tid = some (g2, res) → res = false → g2 = g3) :=
  placement_validation g3 1 1
    (by refine ⟨rfl, ?_, rfl, ?_⟩ <;> · intro row hrow; fin_cases hrow <;> rfl)
    (by decide) (by decide) (by decide) (by decide)

/-- C9 (amended).  Out-of-bounds handling: the Pathfinder rejects
out-of-bounds coordinates in a defined way (`is_valid` is `false` and
`find_path` returns no-path), but the Grid methods do not validate
bounds: a beyond-range index raises `IndexError` (the `none` outcome)
and a small negative index wraps around and reads the cell at the
opposite edge of the grid. -/
theorem oob_rejection :
    (∀ (pf : Pathfinder) (x y : ℤ), (x < 0 ∨ pf.width ≤ x ∨ y < 0 ∨ pf.height ≤ y) →
      pf.is_valid x y = false) ∧
    (∀ (pf : Pathfinder) (s goal : Coord),
      pf.is_valid s.1 s.2 = false ∨ pf.is_valid goal.1 goal.2 = false →
      pf.find_path s goal = none) ∧
    (∀ (g : GridState) (gx gy : ℤ), GridWF g → g.width ≤ gx →
      (gx, gy) ≠ g.start_pos → (gx, gy) ≠ g.end_pos →
      g.is_valid_placement gx gy = none) ∧
    (∀ (g : GridState) (gx gy : ℤ), GridWF g → g.width ≤ gx →
      g.remove_tower gx gy = none) ∧
    (∀ (g : GridState) (gx gy : ℤ), GridWF g → 0 < g.width →
      -g.width ≤ gx → gx < 0 →
      pyGet2 g.cells gx gy = pyGet2 g.cells (gx + g.width) gy) := by
  have hnone : ∀ (g : GridState) (gx : ℤ), GridWF g → g.width ≤ gx →
      ∀ gy, pyGet2 g.cells gx gy = none := by
    intro g gx hwf hgx gy
    unfold pyGet2 pyGet
    rcases le_or_lt 0 g.width with hw | hw
    · rw [pyIdx_oob]
      · rfl
      · rw [hwf.1]; omega
    · have hzero : g.cells.length = 0 := by rw [hwf.1]; omega
      rw [hzero, pyIdx_zero]
      rfl
  refine ⟨?_, ?_, ?_, ?_, ?_⟩
  · intro pf x y h
    unfold Pathfinder.is_valid
    rcases h with h | h | h | h <;> simp [h]
  · intro pf s goal h
    unfold Pathfinder.find_path
    rcases h with h | h <;> rw [if_pos] <;> simp [h]
  · intro g gx gy hwf hgx hs he
    unfold GridState.is_valid_placement
    rw [if_neg (by tauto), hnone g gx hwf hgx gy]
  · intro g gx gy hwf hgx
    unfold GridState.remove_tower
    rw [hnone g gx hwf hgx gy]
  · intro g gx gy hwf hw h0 hneg
    unfold pyGet2 pyGet
    rw [pyIdx_neg _ _ (by rw [hwf.1]; omega) hneg,
      pyIdx_pos _ _ (by omega) (by rw [hwf.1]; omega)]
    have : (gx + (g.cells.length : ℤ)).toNat = (gx + g.width).toNat := by
      rw [hwf.1]; omega
    rw [this]

/-- C9 witness: the defined Pathfinder rejections at concrete
out-of-bounds coordinates, and the Grid-side exception and wrap-around on
the concrete grid `gW`. -/
theorem oob_rejection_witness :
    (Pathfinder.mk 3 3 ∅).is_valid (-1) 1 = false ∧
    (Pathfinder.mk 3 3 ∅).find_path (-1, 1) (2, 2) = none ∧
    gW.is_valid_placement 3 1 = none ∧
    gW.remove_tower 3 1 = none ∧
    pyGet2 gW.cells (-1) 0 = pyGet2 gW.cells 2 0 := by
  have hwf : GridWF gW := by
    refine ⟨rfl, ?_, rfl, ?_⟩ <;> · intro row hrow; fin_cases hrow <;> rfl
  refine ⟨?_, ?_, ?_, ?_, ?_⟩
  · exact oob_rejection.1 _ (-1) 1 (by norm_num)
  · exact oob_rejection.2.1 _ (-1, 1) (2, 2)
      (Or.inl (oob_rejection.1 _ (-1) 1 (by norm_num)))
  · exact oob_rejection.2.2.1 gW 3 1 hwf (by decide) (by decide) (by decide)
  · exact oob_rejection.2.2.2.1 gW 3 1 hwf (by decide)
  · have := oob_rejection.2.2.2.2 gW (-1) 0 hwf (by decide) (by decide) (by decide)
    simpa using this

/-- C9 counterexample: on the concrete grid `gW` (tower at `(2, 0)`),
`is_valid_placement (-1, 1)` returns `true` instead of a defined
rejection, `is_valid_placement (3, 1)` raises instead of returning
`false`, and `remove_tower (-1, 0)` reports success while clearing the
committed cell `(2, 0)` — a different cell than the one named — and
leaving the tower dictionary and the obstacle set stale. -/
theorem oob_rejection_counterexample :
    gW.is_valid_placement (-1) 1 = some true ∧
    gW.is_valid_placement 3 1 = none ∧
    ((gW.remove_tower (-1) 0).map (fun r => r.2)) = some true ∧
    ((gW.remove_tower (-1) 0).map (fun r => pyGet2 r.1.cells 2 0)) = some (some none) ∧
    ((gW.remove_tower (-1) 0).map (fun r => r.1.towers)) = some [((2, 0), 7)] ∧
    ((gW.remove_tower (-1) 0).map (fun r => r.1.obstacles)) =
      some ({(2, 0)} : Finset Coord) := by
  refine ⟨?_, ?_, ?_, ?_, ?_, ?_⟩ <;> decide

/-! ## Heap order lemmas -/

/-- The entry order is total. -/
theorem entryLe_total (a b : ℕ × Coord) : entryLe a b ∨ entryLe b a := by
  unfold entryLe
  omega

/-- The entry order is reflexive. -/
theorem entryLe_refl (a : ℕ × Coord) : entryLe a a := by
  unfold entryLe
  omega

/-- The entry order is transitive. -/
theorem entryLe_trans (a b c : ℕ × Coord) (h1 : entryLe a b) (h2 : entryLe b c) :
    entryLe a c := by
  unfold entryLe at *
  omega

/-- The entry order compares priorities first. -/
theorem entryLe_fst (a b : ℕ × Coord) (h : entryLe a b) : a.1 ≤ b.1 := by
  unfold entryLe at h
  omega

/-- `heappop` fails exactly on the empty heap. -/
theorem heapPop_none_iff (l : List (ℕ × Coord)) : heapPop l = none ↔ l = [] := by
  cases l with
  | nil => simp [heapPop]
  | cons e tl =>
    cases htl : heapPop tl with
    | none => simp [heapPop, htl]
    | some r => simp [heapPop, htl]; split_ifs <;> simp

/-- `heappop` removes one occurrence: the result is a permutation. -/
theorem heapPop_perm (l : List (ℕ × Coord)) (m : ℕ × Coord) (rest : List (ℕ × Coord))
    (h : heapPop l = some (m, rest)) : l.Perm (m :: rest) := by
  induction l generalizing m rest with
  | nil => simp [heapPop] at h
  | cons e tl ih =>
    rw [show heapPop (e :: tl) = match heapPop tl with
      | none => some (e, [])
      | some (m2, rest2) =>
        if entryLe e m2 then some (e, tl) else some (m2, e :: rest2) from rfl] at h
    cases htl : heapPop tl with
    | none =>
      rw [htl] at h
      dsimp only at h
      simp at h
      rw [h.1, (heapPop_none_iff tl).mp htl, h.2]
    | some r =>
      obtain ⟨m2, rest2⟩ := r
      rw [htl] at h
      dsimp only at h
      split_ifs at h with hle
      · simp at h
        rw [← h.1, ← h.2]
      · simp at h
        rw [← h.1, ← h.2]
        exact ((ih m2 rest2 htl).cons e).trans (List.Perm.swap m2 e rest2)

/-- `heappop` returns a minimal entry of the Python tuple order. -/
theorem heapPop_min (l : List (ℕ × Coord)) (m : ℕ × Coord) (rest : List (ℕ × Coord))
    (h : heapPop l = some (m, rest)) : ∀ x ∈ l, entryLe m x := by
  induction l generalizing m rest with
  | nil => simp [heapPop] at h
  | cons e tl ih =>
    rw [show heapPop (e :: tl) = match heapPop tl with
      | none => some (e, [])
      | some (m2, rest2) =>
        if entryLe e m2 then some (e, tl) else some (m2, e :: rest2) from rfl] at h
    cases htl : heapPop tl with
    | none =>
      rw [htl] at h
      dsimp only at h
      simp at h
      intro x hx
      rw [(heapPop_none_iff tl).mp htl] at hx
      simp at hx
      rw [hx, ← h.1]
      exact entryLe_refl e
    | some r =>
      obtain ⟨m2, rest2⟩ := r
      rw [htl] at h
      dsimp only at h
      split_ifs at h with hle
      · simp at h
        intro x hx
        rcases List.mem_cons.mp hx with hx | hx
        · rw [hx, ← h.1]; exact entryLe_refl e
        · rw [← h.1]
          exact entryLe_trans e m2 x hle (ih m2 rest2 htl x hx)
      · simp at h
        intro x hx
        rcases List.mem_cons.mp hx with hx | hx
        · rw [hx, ← h.1]
          rcases entryLe_total m2 e with hh | hh
          · exact hh
          · exact absurd hh hle
        · rw [← h.1]
          exact ih m2 rest2 htl x hx

/-! ## Walks and graph distance -/

/-- A step target is valid. -/
theorem stepOk_valid (pf : Pathfinder) (a b : Coord) (h : StepOk pf a b) :
    pf.is_valid b.1 b.2 = true := by
  unfold StepOk Pathfinder.get_neighbors at h
  exact (List.mem_filter.mp h).2

/-- A step target is one of the four neighbours, hence distinct from the
source. -/
theorem stepOk_ne (pf : Pathfinder) (a b : Coord) (h : StepOk pf a b) : b ≠ a := by
  intro hcontra
  subst hcontra
  unfold StepOk Pathfinder.get_neighbors at h
  have hmem := (List.mem_filter.mp h).1
  obtain ⟨ax, ay⟩ := b
  simp only [List.mem_cons, List.mem_singleton, Prod.mk.injEq, List.not_mem_nil,
    or_false] at hmem
  rcases hmem with ⟨h1, h2⟩ | ⟨h1, h2⟩ | ⟨h1, h2⟩ | ⟨h1, h2⟩ <;> omega

/-- A step moves Manhattan distance exactly one. -/
theorem stepOk_heuristic (pf : Pathfinder) (a b : Coord) (h : StepOk pf a b) :
    pf.heuristic a b = 1 := by
  unfold StepOk Pathfinder.get_neighbors at h
  have hmem := (List.mem_filter.mp h).1
  unfold Pathfinder.heuristic
  obtain ⟨ax, ay⟩ := a
  obtain ⟨bx, bz⟩ := b
  simp only [List.mem_cons, List.mem_singleton, Prod.mk.injEq, List.not_mem_nil,
    or_false] at hmem
  rcases hmem with ⟨h1, h2⟩ | ⟨h1, h2⟩ | ⟨h1, h2⟩ | ⟨h1, h2⟩ <;> omega

/-- Both endpoints of a walk are valid. -/
theorem steps_valid (pf : Pathfinder) (a b : Coord) (n : ℕ) (h : Steps pf a b n) :
    pf.is_valid a.1 a.2 = true ∧ pf.is_valid b.1 b.2 = true := by
  induction h with
  | refl hc => exact ⟨hc, hc⟩
  | tail b c n hab step ih => exact ⟨ih.1, stepOk_valid pf b c step⟩

/-- Walks compose. -/
theorem steps_trans (pf : Pathfinder) (a b c : Coord) (n m : ℕ)
    (h1 : Steps pf a b n) (h2 : Steps pf b c m) : Steps pf a c (n + m) := by
  induction h2 with
  | refl hd => exact h1
  | tail y z k hxy step ih => exact Nat.add_succ n k ▸ Steps.tail a y z (n + k) ih step

/-- A zero-length walk stays put. -/
theorem steps_zero (pf : Pathfinder) (a b : Coord) (h : Steps pf a b 0) : a = b := by
  cases h
  rfl

/-- A nonempty walk decomposes at the front. -/
theorem steps_front (pf : Pathfinder) (a c : Coord) (n : ℕ) (h : Steps pf a c (n + 1)) :
    ∃ b, StepOk pf a b ∧ Steps pf b c n := by
  induction n generalizing c with
  | zero =>
    cases h with
    | tail b c2 k hab step =>
      rw [steps_zero pf a b hab]
      exact ⟨c, step, Steps.refl c (stepOk_valid pf b c step)⟩
  | succ m ih =>
    cases h with
    | tail b c2 k hab step =>
      obtain ⟨b0, hstep0, hrest⟩ := ih b hab
      exact ⟨b0, hstep0, Steps.tail b0 b c m hrest step⟩

/-- The Manhattan heuristic is admissible: it never exceeds the length of
any walk. -/
theorem heuristic_admissible (pf : Pathfinder) (a b : Coord) (n : ℕ) (h : Steps pf a b n) :
    pf.heuristic a b ≤ n := by
  induction h with
  | refl hc => unfold Pathfinder.heuristic; omega
  | tail d c n hab step ih =>
    have h1 := stepOk_heuristic pf d c step
    have htri : pf.heuristic a c ≤ pf.heuristic a d + pf.heuristic d c := by
      unfold Pathfinder.heuristic
      omega
    omega

/-- `gdist` is a lower bound realised by some walk. -/
theorem gdist_le (pf : Pathfinder) (a b : Coord) (n : ℕ) (h : Steps pf a b n) :
    gdist pf a b ≤ n :=
  Nat.sInf_le h

/-- If any walk exists, a walk of length `gdist` exists. -/
theorem gdist_steps (pf : Pathfinder) (a b : Coord) (n : ℕ) (h : Steps pf a b n) :
    Steps pf a b (gdist pf a b) :=
  Nat.sInf_mem ⟨n, h⟩

/-- Paths yield walks of length one less than the node count. -/
theorem isPath_steps (pf : Pathfinder) (p : List Coord) :
    ∀ s e, IsPath pf s e p → Steps pf s e (p.length - 1) := by
  induction p with
  | nil =>
    intro s e h
    obtain ⟨hhead, _, _, _⟩ := h
    simp at hhead
  | cons x tl ih =>
    intro s e h
    obtain ⟨hhead, hlast, hchain, hvalid⟩ := h
    simp at hhead
    subst hhead
    cases tl with
    | nil =>
      simp at hlast
      subst hlast
      exact Steps.refl _ hvalid
    | cons y tl2 =>
      have hchain2 := List.chain'_cons.mp hchain
      have hstep : StepOk pf x y := hchain2.1
      have hvy := stepOk_valid pf x y hstep
      have hrec := ih y e ⟨by simp, by simpa using hlast, hchain2.2, hvy⟩
      have hcomp := steps_trans pf x y e 1 ((y :: tl2).length - 1)
        (Steps.tail x x y 0 (Steps.refl x hvalid) hstep) hrec
      have hlen : (x :: y :: tl2).length - 1 = 1 + ((y :: tl2).length - 1) := by
        simp only [List.length_cons]
        omega
      rw [hlen]
      exact hcomp

/-- Walks yield paths. -/
theorem steps_isPath (pf : Pathfinder) (s e : Coord) (n : ℕ) (h : Steps pf s e n) :
    ∃ p, IsPath pf s e p ∧ p.length = n + 1 := by
  induction h with
  | refl hc =>
    exact ⟨[s], ⟨rfl, rfl, by simp, hc⟩, rfl⟩
  | tail b c k hab step ih =>
    obtain ⟨p, ⟨hhead, hlast, hchain, hvalid⟩, hlen⟩ := ih
    refine ⟨p ++ [c], ⟨?_, ?_, ?_, hvalid⟩, by simp [hlen]⟩
    · rcases p with _ | ⟨x, tl⟩
      · simp at hhead
      · simpa using hhead
    · simp
    · rw [List.chain'_append]
      refine ⟨hchain, by simp, ?_⟩
      intro x hx y hy
      simp at hy
      subst hy
      rw [hlast] at hx
      simp at hx
      subst hx
      exact step

/-! ## Bookkeeping for the termination measure -/

/-- Valid cells belong to the finite cell set. -/
theorem valid_mem_validCells (pf : Pathfinder) (c : Coord)
    (h : pf.is_valid c.1 c.2 = true) : c ∈ pf.validCells := by
  unfold Pathfinder.validCells
  unfold Pathfinder.is_valid at h
  simp only [Bool.and_eq_true, decide_eq_true_eq] at h
  rw [Finset.mem_filter, Finset.mem_product, Finset.mem_Icc, Finset.mem_Icc]
  refine ⟨⟨⟨h.1.1.1.1, by omega⟩, ⟨h.1.1.2, by omega⟩⟩, ?_⟩
  unfold Pathfinder.is_valid
  simp only [Bool.and_eq_true, decide_eq_true_eq]
  exact h

/-- The valid cell set is at most the bound rectangle. -/
theorem validCells_card_le (pf : Pathfinder) : pf.validCells.card ≤ pf.cellCount := by
  unfold Pathfinder.validCells Pathfinder.cellCount
  calc (((Finset.Icc 0 (pf.width - 1)) ×ˢ (Finset.Icc 0 (pf.height - 1))).filter
      (fun c => pf.is_valid c.1 c.2)).card
      ≤ ((Finset.Icc 0 (pf.width - 1)) ×ˢ (Finset.Icc 0 (pf.height - 1))).card :=
        Finset.card_filter_le _ _
    _ = (Finset.Icc (0 : ℤ) (pf.width - 1)).card * (Finset.Icc (0 : ℤ) (pf.height - 1)).card :=
        Finset.card_product _ _
    _ = pf.width.toNat * pf.height.toNat := by
        rw [Int.card_Icc, Int.card_Icc]
        congr 1 <;> omega

/-- Updating one cost entry updates the potential summand pointwise. -/
theorem phi_update (pf : Pathfinder) (st : AState) (nxt : Coord) (w : ℕ)
    (hmem : nxt ∈ pf.validCells) :
    phi pf { st with cost := Function.update st.cost nxt (some w) } =
      w + (pf.validCells.erase nxt).sum (fun c => (st.cost c).getD pf.cellCount) := by
  unfold phi
  have hfun : (fun c => ((Function.update st.cost nxt (some w) : Coord → Option ℕ) c).getD
      pf.cellCount) =
      Function.update (fun c => (st.cost c).getD pf.cellCount) nxt w := by
    funext c
    by_cases hc : c = nxt
    · subst hc; simp [Function.update]
    · simp [Function.update, hc]
  rw [hfun, Finset.sum_update_of_mem hmem, Finset.sdiff_singleton_eq_erase]

/-- The potential with the summand at a member split off. -/
theorem phi_split (pf : Pathfinder) (st : AState) (nxt : Coord) (hmem : nxt ∈ pf.validCells) :
    phi pf st = (st.cost nxt).getD pf.cellCount +
      (pf.validCells.erase nxt).sum (fun c => (st.cost c).getD pf.cellCount) := by
  unfold phi
  rw [← Finset.add_sum_erase _ _ hmem]

/-- Discovering a new cell grows the key count by one. -/
theorem keyCard_new (pf : Pathfinder) (st : AState) (nxt : Coord) (w : ℕ)
    (hmem : nxt ∈ pf.validCells) (habs : st.cost nxt = none) :
    keyCard pf { st with cost := Function.update st.cost nxt (some w) } =
      keyCard pf st + 1 := by
  unfold keyCard
  have : pf.validCells.filter
      (fun c => ((Function.update st.cost nxt (some w) : Coord → Option ℕ) c).isSome) =
      insert nxt (pf.validCells.filter (fun c => (st.cost c).isSome)) := by
    ext c
    by_cases hc : c = nxt
    · subst hc
      simp [Finset.mem_filter, Function.update, hmem]
    · simp [Finset.mem_filter, Function.update, hc]
  rw [this, Finset.card_insert_of_not_mem]
  simp [Finset.mem_filter, habs]

/-- Improving an existing cell keeps the key count. -/
theorem keyCard_improve (pf : Pathfinder) (st : AState) (nxt : Coord) (w old : ℕ)
    (hold : st.cost nxt = some old) :
    keyCard pf { st with cost := Function.update st.cost nxt (some w) } = keyCard pf st := by
  unfold keyCard
  congr 1
  ext c
  by_cases hc : c = nxt
  · subst hc
    simp [Finset.mem_filter, Function.update, hold]
  · simp [Finset.mem_filter, Function.update, hc]

/-- The key count never exceeds the number of valid cells. -/
theorem keyCard_le_card (pf : Pathfinder) (st : AState) :
    keyCard pf st ≤ pf.validCells.card :=
  Finset.card_filter_le _ _

/-- While some valid cell is undiscovered, the key count is strictly below
the number of valid cells. -/
theorem keyCard_lt (pf : Pathfinder) (st : AState) (nxt : Coord)
    (hmem : nxt ∈ pf.validCells) (habs : st.cost nxt = none) :
    keyCard pf st < pf.validCells.card := by
  unfold keyCard
  apply Finset.card_lt_card
  constructor
  · exact Finset.filter_subset _ _
  · intro hsub
    have := hsub hmem
    simp [Finset.mem_filter, habs] at this

/-! ## The relaxation step -/

/-- The pushed state of a successful relaxation. -/
def pushState (pf : Pathfinder) (goal cur nxt : Coord) (st : AState) (vc : ℕ) : AState :=
  { frontier := (vc + 1 + pf.heuristic nxt goal, nxt) :: st.frontier,
    cameFrom := Function.update st.cameFrom nxt (some (some cur)),
    cost := Function.update st.cost nxt (some (vc + 1)) }

/-- `relax` on an undiscovered neighbour pushes. -/
theorem relax_eq_push_none (pf : Pathfinder) (goal cur nxt : Coord) (st : AState) (vc : ℕ)
    (hvc : st.cost cur = some vc) (habs : st.cost nxt = none) :
    relax pf goal cur st nxt = pushState pf goal cur nxt st vc := by
  unfold relax pushState
  rw [hvc, habs]
  rfl

/-- `relax` on a strictly improvable neighbour pushes. -/
theorem relax_eq_push_improve (pf : Pathfinder) (goal cur nxt : Coord) (st : AState)
    (vc old : ℕ) (hvc : st.cost cur = some vc) (hold : st.cost nxt = some old)
    (himp : vc + 1 < old) :
    relax pf goal cur st nxt = pushState pf goal cur nxt st vc := by
  unfold relax pushState
  rw [hvc, hold]
  simp only [Option.getD_some]
  rw [if_pos himp]

/-- `relax` on a non-improvable neighbour does nothing. -/
theorem relax_eq_id (pf : Pathfinder) (goal cur nxt : Coord) (st : AState) (vc old : ℕ)
    (hvc : st.cost cur = some vc) (hold : st.cost nxt = some old) (himp : ¬(vc + 1 < old)) :
    relax pf goal cur st nxt = st := by
  unfold relax
  rw [hvc, hold]
  simp only [Option.getD_some]
  rw [if_neg himp]

/-- A push cannot target the start (its cost 0 cannot be improved). -/
theorem push_ne_start (pf : Pathfinder) (s goal cur nxt : Coord) (st : AState) (vc : ℕ)
    (hE : AInvE pf s goal st (some cur))
    (hcase : st.cost nxt = none ∨ ∃ old, st.cost nxt = some old ∧ vc + 1 < old) :
    nxt ≠ s := by
  intro hcontra
  subst hcontra
  rcases hcase with h | ⟨old, hold, himp⟩
  · rw [hE.start_cost] at h
    cases h
  · rw [hE.start_cost] at hold
    cases hold
    omega

/-- One successful relaxation preserves the suspended invariant and
strictly decreases the potential. -/
theorem relax_push_inv (pf : Pathfinder) (s goal cur nxt : Coord) (st : AState) (vc : ℕ)
    (hE : AInvE pf s goal st (some cur)) (hvc : st.cost cur = some vc)
    (hstep : StepOk pf cur nxt)
    (hcase : st.cost nxt = none ∨ ∃ old, st.cost nxt = some old ∧ vc + 1 < old) :
    AInvE pf s goal (pushState pf goal cur nxt st vc) (some cur) ∧
    phi pf (pushState pf goal cur nxt st vc) + 1 ≤ phi pf st := by
  have hne_cur : nxt ≠ cur := stepOk_ne pf cur nxt hstep
  have hvalid_nxt : pf.is_valid nxt.1 nxt.2 = true := stepOk_valid pf cur nxt hstep
  have hmem_nxt : nxt ∈ pf.validCells := valid_mem_validCells pf nxt hvalid_nxt
  have hne_s : nxt ≠ s := push_ne_start pf s goal cur nxt st vc hE hcase
  set st2 := pushState pf goal cur nxt st vc with hst2
  have hcost2 : st2.cost = Function.update st.cost nxt (some (vc + 1)) := rfl
  have hcf2 : st2.cameFrom = Function.update st.cameFrom nxt (some (some cur)) := rfl
  have hfr2 : st2.frontier = (vc + 1 + pf.heuristic nxt goal, nxt) :: st.frontier := rfl
  have hcost2_nxt : st2.cost nxt = some (vc + 1) := by
    rw [hcost2, Function.update_same]
  have hcost2_ne : ∀ c, c ≠ nxt → st2.cost c = st.cost c := by
    intro c hc
    rw [hcost2, Function.update_noteq hc]
  have hcf2_nxt : st2.cameFrom nxt = some (some cur) := by
    rw [hcf2, Function.update_same]
  have hcf2_ne : ∀ c, c ≠ nxt → st2.cameFrom c = st.cameFrom c := by
    intro c hc
    rw [hcf2, Function.update_noteq hc]
  constructor
  · constructor
    case start_cost => rw [hcost2_ne s (Ne.symm hne_s)]; exact hE.start_cost
    case start_valid => exact hE.start_valid
    case cost_sound =>
      intro c v hcv
      by_cases hc : nxt = c
      · subst hc
        rw [hcost2_nxt] at hcv
        cases hcv
        exact Steps.tail s cur nxt vc (hE.cost_sound cur vc hvc) hstep
      · rw [hcost2_ne c (fun hcc => hc hcc.symm)] at hcv
        exact hE.cost_sound c v hcv
    case parent_start => rw [hcf2_ne s (Ne.symm hne_s)]; exact hE.parent_start
    case parent_none =>
      intro c hc
      by_cases hcn : nxt = c
      · subst hcn
        rw [hcf2_nxt] at hc
        cases hc
      · rw [hcf2_ne c (fun hcc => hcn hcc.symm)] at hc
        exact hE.parent_none c hc
    case dom_eq =>
      intro c
      by_cases hc : nxt = c
      · subst hc
        rw [hcost2_nxt, hcf2_nxt]
        rfl
      · rw [hcost2_ne c (fun hcc => hc hcc.symm), hcf2_ne c (fun hcc => hc hcc.symm)]
        exact hE.dom_eq c
    case parent_link =>
      intro c pc hlink
      by_cases hc : nxt = c
      · subst hc
        rw [hcf2_nxt] at hlink
        cases hlink
        refine ⟨vc + 1, vc, hcost2_nxt, ?_, by omega, hstep⟩
        rw [hcost2_ne cur (Ne.symm hne_cur)]
        exact hvc
      · have hcc : c ≠ nxt := fun hcc => hc hcc.symm
        rw [hcf2_ne c hcc] at hlink
        obtain ⟨vc2, vp, hc2, hp2, hlt, hs2⟩ := hE.parent_link c pc hlink
        by_cases hpc : nxt = pc
        · subst hpc
          rcases hcase with habs | ⟨old, hold, himp⟩
          · rw [habs] at hp2
            cases hp2
          · rw [hold] at hp2
            cases hp2
            exact ⟨vc2, vc + 1, by rw [hcost2_ne c hcc]; exact hc2,
              hcost2_nxt, by omega, hs2⟩
        · exact ⟨vc2, vp, by rw [hcost2_ne c hcc]; exact hc2,
            by rw [hcost2_ne pc (fun hcc2 => hpc hcc2.symm)]; exact hp2, hlt, hs2⟩
    case frontier_low =>
      intro p c hpc
      rw [hfr2] at hpc
      rcases List.mem_cons.mp hpc with heq | hmem
      · cases heq
        exact ⟨vc + 1, hcost2_nxt, Or.inl (le_refl _)⟩
      · obtain ⟨v, hv, hbound⟩ := hE.frontier_low p c hmem
        by_cases hc : nxt = c
        · subst hc
          rcases hcase with habs | ⟨old, hold, himp⟩
          · rw [habs] at hv
            cases hv
          · rw [hold] at hv
            cases hv
            refine ⟨vc + 1, hcost2_nxt, ?_⟩
            rcases hbound with hb | ⟨hbs, _⟩
            · exact Or.inl (by omega)
            · exact absurd hbs hne_s
        · exact ⟨v, by rw [hcost2_ne c (fun hcc => hc hcc.symm)]; exact hv, hbound⟩
    case cover =>
      intro c v hcv hex
      by_cases hc : nxt = c
      · subst hc
        rw [hcost2_nxt] at hcv
        cases hcv
        left
        refine ⟨vc + 1 + pf.heuristic nxt goal, ?_, le_refl _⟩
        rw [hfr2]
        exact List.mem_cons_self _ _
      · rw [hcost2_ne c (fun hcc => hc hcc.symm)] at hcv
        rcases hE.cover c v hcv hex with ⟨p, hpmem, hple⟩ | hall
        · left
          exact ⟨p, by rw [hfr2]; exact List.mem_cons_of_mem _ hpmem, hple⟩
        · right
          intro n hn
          obtain ⟨vn, hvn, hvle⟩ := hall n hn
          by_cases hnn : nxt = n
          · subst hnn
            rcases hcase with habs | ⟨old, hold, himp⟩
            · rw [habs] at hvn
              cases hvn
            · rw [hold] at hvn
              cases hvn
              exact ⟨vc + 1, hcost2_nxt, by omega⟩
          · exact ⟨vn, by rw [hcost2_ne n (fun hcc => hnn hcc.symm)]; exact hvn, hvle⟩
    case goal_pending =>
      intro v hv
      by_cases hg : nxt = goal
      · subst hg
        rw [hcost2_nxt] at hv
        cases hv
        refine ⟨vc + 1 + pf.heuristic nxt nxt, ?_, le_refl _⟩
        rw [hfr2]
        exact List.mem_cons_self _ _
      · rw [hcost2_ne goal (fun hcc => hg hcc.symm)] at hv
        obtain ⟨p, hpmem, hple⟩ := hE.goal_pending v hv
        exact ⟨p, by rw [hfr2]; exact List.mem_cons_of_mem _ hpmem, hple⟩
    case value_bound =>
      intro c v hcv
      rcases hcase with habs | ⟨old, hold, himp⟩
      · have hkc : keyCard pf st2 = keyCard pf st + 1 := keyCard_new pf st nxt (vc + 1)
          hmem_nxt habs
        by_cases hc : nxt = c
        · subst hc
          rw [hcost2_nxt] at hcv
          cases hcv
          have := hE.value_bound cur vc hvc
          omega
        · rw [hcost2_ne c (fun hcc => hc hcc.symm)] at hcv
          have := hE.value_bound c v hcv
          omega
      · have hkc : keyCard pf st2 = keyCard pf st := keyCard_improve pf st nxt (vc + 1)
          old hold
        by_cases hc : nxt = c
        · subst hc
          rw [hcost2_nxt] at hcv
          cases hcv
          have := hE.value_bound nxt old hold
          omega
        · rw [hcost2_ne c (fun hcc => hc hcc.symm)] at hcv
          have := hE.value_bound c v hcv
          omega
  · have hphi2 : phi pf st2 = vc + 1 +
        (pf.validCells.erase nxt).sum (fun c => (st.cost c).getD pf.cellCount) :=
      phi_update pf st nxt (vc + 1) hmem_nxt
    have hphi1 := phi_split pf st nxt hmem_nxt
    rcases hcase with habs | ⟨old, hold, himp⟩
    · have hlt := keyCard_lt pf st nxt hmem_nxt habs
      have hle := validCells_card_le pf
      have hbv := hE.value_bound cur vc hvc
      rw [hphi2, hphi1, habs]
      simp only [Option.getD_none]
      omega
    · rw [hphi2, hphi1, hold]
      simp only [Option.getD_some]
      omega

/-- Full case analysis of one relaxation: invariant preservation plus the
bookkeeping the fold needs. -/
theorem relax_except (pf : Pathfinder) (s goal cur nxt : Coord) (st : AState) (vc : ℕ)
    (hE : AInvE pf s goal st (some cur)) (hvc : st.cost cur = some vc)
    (hstep : StepOk pf cur nxt) :
    AInvE pf s goal (relax pf goal cur st nxt) (some cur) ∧
    (relax pf goal cur st nxt).cost cur = some vc ∧
    (∃ vn, (relax pf goal cur st nxt).cost nxt = some vn ∧ vn ≤ vc + 1) ∧
    (∀ c v, st.cost c = some v → ∃ v2, (relax pf goal cur st nxt).cost c = some v2 ∧ v2 ≤ v) ∧
    (∀ e ∈ st.frontier, e ∈ (relax pf goal cur st nxt).frontier) ∧
    2 * phi pf (relax pf goal cur st nxt) + (relax pf goal cur st nxt).frontier.length ≤
      2 * phi pf st + st.frontier.length := by
  have hne_cur : nxt ≠ cur := stepOk_ne pf cur nxt hstep
  rcases hnxt : st.cost nxt with _ | old
  · rw [relax_eq_push_none pf goal cur nxt st vc hvc hnxt]
    have h := relax_push_inv pf s goal cur nxt st vc hE hvc hstep (Or.inl hnxt)
    have hlen : (pushState pf goal cur nxt st vc).frontier.length =
        st.frontier.length + 1 := rfl
    refine ⟨h.1, ?_, ?_, ?_, ?_, ?_⟩
    · show (Function.update st.cost nxt (some (vc + 1)) : Coord → Option ℕ) cur = some vc
      rw [Function.update_noteq (Ne.symm hne_cur)]
      exact hvc
    · exact ⟨vc + 1, by show (Function.update st.cost nxt (some (vc + 1)) :
        Coord → Option ℕ) nxt = _; rw [Function.update_same], le_refl _⟩
    · intro c v hcv
      by_cases hc : nxt = c
      · subst hc
        rw [hnxt] at hcv
        cases hcv
      · refine ⟨v, ?_, le_refl v⟩
        show (Function.update st.cost nxt (some (vc + 1)) : Coord → Option ℕ) c = some v
        rw [Function.update_noteq (fun hcc => hc hcc.symm)]
        exact hcv
    · intro e he
      exact List.mem_cons_of_mem _ he
    · have := h.2
      omega
  · by_cases himp : vc + 1 < old
    · rw [relax_eq_push_improve pf goal cur nxt st vc old hvc hnxt himp]
      have h := relax_push_inv pf s goal cur nxt st vc hE hvc hstep
        (Or.inr ⟨old, hnxt, himp⟩)
      have hlen : (pushState pf goal cur nxt st vc).frontier.length =
          st.frontier.length + 1 := rfl
      refine ⟨h.1, ?_, ?_, ?_, ?_, ?_⟩
      · show (Function.update st.cost nxt (some (vc + 1)) : Coord → Option ℕ) cur = some vc
        rw [Function.update_noteq (Ne.symm hne_cur)]
        exact hvc
      · exact ⟨vc + 1, by show (Function.update st.cost nxt (some (vc + 1)) :
          Coord → Option ℕ) nxt = _; rw [Function.update_same], le_refl _⟩
      · intro c v hcv
        by_cases hc : nxt = c
        · subst hc
          rw [hnxt] at hcv
          cases hcv
          refine ⟨vc + 1, ?_, by omega⟩
          show (Function.update st.cost nxt (some (vc + 1)) : Coord → Option ℕ) nxt = _
          rw [Function.update_same]
        · refine ⟨v, ?_, le_refl v⟩
          show (Function.update st.cost nxt (some (vc + 1)) : Coord → Option ℕ) c = some v
          rw [Function.update_noteq (fun hcc => hc hcc.symm)]
          exact hcv
      · intro e he
        exact List.mem_cons_of_mem _ he
      · have := h.2
        omega
    · rw [relax_eq_id pf goal cur nxt st vc old hvc hnxt himp]
      exact ⟨hE, hvc, ⟨old, hnxt, by omega⟩,
        fun c v hcv => ⟨v, hcv, le_refl v⟩, fun e he => he, le_refl _⟩

/-- Folding the relaxation over a list of neighbours. -/
theorem relaxList_except (pf : Pathfinder) (s goal cur : Coord) (l : List Coord) :
    ∀ (st : AState) (vc : ℕ), AInvE pf s goal st (some cur) → st.cost cur = some vc →
    (∀ n ∈ l, StepOk pf cur n) →
    AInvE pf s goal (List.foldl (relax pf goal cur) st l) (some cur) ∧
    (List.foldl (relax pf goal cur) st l).cost cur = some vc ∧
    (∀ n ∈ l, ∃ vn, (List.foldl (relax pf goal cur) st l).cost n = some vn ∧ vn ≤ vc + 1) ∧
    (∀ c v, st.cost c = some v →
      ∃ v2, (List.foldl (relax pf goal cur) st l).cost c = some v2 ∧ v2 ≤ v) ∧
    (∀ e ∈ st.frontier, e ∈ (List.foldl (relax pf goal cur) st l).frontier) ∧
    2 * phi pf (List.foldl (relax pf goal cur) st l) +
      (List.foldl (relax pf goal cur) st l).frontier.length ≤
      2 * phi pf st + st.frontier.length := by
  induction l with
  | nil =>
    intro st vc hE hvc _
    exact ⟨hE, hvc, by simp, fun c v hcv => ⟨v, hcv, le_refl v⟩, fun e he => he, le_refl _⟩
  | cons n tl ih =>
    intro st vc hE hvc hl
    have hstep : StepOk pf cur n := hl n (List.mem_cons_self n tl)
    obtain ⟨hE1, hvc1, hn1, hmono1, hfr1, hmu1⟩ :=
      relax_except pf s goal cur n st vc hE hvc hstep
    obtain ⟨hE2, hvc2, hn2, hmono2, hfr2, hmu2⟩ :=
      ih (relax pf goal cur st n) vc hE1 hvc1 (fun m hm => hl m (List.mem_cons_of_mem n hm))
    rw [List.foldl_cons]
    refine ⟨hE2, hvc2, ?_, ?_, ?_, ?_⟩
    · intro m hm
      rcases List.mem_cons.mp hm with hm | hm
      · subst hm
        obtain ⟨vn, hvn, hle⟩ := hn1
        obtain ⟨v2, hv2, hle2⟩ := hmono2 m vn hvn
        exact ⟨v2, hv2, le_trans hle2 hle⟩
      · exact hn2 m hm
    · intro c v hcv
      obtain ⟨v1, hv1, hle1⟩ := hmono1 c v hcv
      obtain ⟨v2, hv2, hle2⟩ := hmono2 c v1 hv1
      exact ⟨v2, hv2, le_trans hle2 hle1⟩
    · intro e he
      exact hfr2 e (hfr1 e he)
    · omega

/-- Popping an entry suspends at most the cover obligation of the popped
cell. -/
theorem pop_except (pf : Pathfinder) (s goal : Coord) (st : AState) (p : ℕ) (cur : Coord)
    (rest : List (ℕ × Coord)) (hinv : AInv pf s goal st)
    (hpop : heapPop st.frontier = some ((p, cur), rest)) (hne : cur ≠ goal) :
    AInvE pf s goal { st with frontier := rest } (some cur) ∧
    (∃ vc, st.cost cur = some vc) ∧
    st.frontier.length = rest.length + 1 := by
  have hperm := heapPop_perm st.frontier (p, cur) rest hpop
  have hmem_pop : (p, cur) ∈ st.frontier := hperm.mem_iff.mpr (List.mem_cons_self _ _)
  have hrest_sub : ∀ e ∈ rest, e ∈ st.frontier := by
    intro e he
    exact hperm.mem_iff.mpr (List.mem_cons_of_mem _ he)
  have hsurvive : ∀ (q : ℕ) (c : Coord), (q, c) ∈ st.frontier → c ≠ cur → (q, c) ∈ rest := by
    intro q c hqc hcc
    rcases List.mem_cons.mp (hperm.mem_iff.mp hqc) with heq | hmem
    · cases heq
      exact absurd rfl hcc
    · exact hmem
  refine ⟨?_, ?_, hperm.length_eq⟩
  · constructor
    case start_cost => exact hinv.start_cost
    case start_valid => exact hinv.start_valid
    case cost_sound => exact hinv.cost_sound
    case parent_start => exact hinv.parent_start
    case parent_none => exact hinv.parent_none
    case dom_eq => exact hinv.dom_eq
    case parent_link => exact hinv.parent_link
    case frontier_low =>
      intro q c hqc
      exact hinv.frontier_low q c (hrest_sub (q, c) hqc)
    case cover =>
      intro c v hcv hex
      have hcc : c ≠ cur := by
        intro hcontra
        subst hcontra
        exact hex rfl
      rcases hinv.cover c v hcv (by simp) with ⟨q, hqmem, hqle⟩ | hall
      · exact Or.inl ⟨q, hsurvive q c hqmem hcc, hqle⟩
      · exact Or.inr hall
    case goal_pending =>
      intro v hv
      obtain ⟨q, hqmem, hqle⟩ := hinv.goal_pending v hv
      exact ⟨q, hsurvive q goal hqmem (fun hcontra => hne hcontra.symm), hqle⟩
    case value_bound => exact hinv.value_bound
  · obtain ⟨v, hv, _⟩ := hinv.frontier_low p cur hmem_pop
    exact ⟨v, hv⟩

/-- One non-returning iteration of the loop: the full invariant is restored
and the measure strictly decreases. -/
theorem astar_step (pf : Pathfinder) (s goal : Coord) (st : AState) (p : ℕ) (cur : Coord)
    (rest : List (ℕ × Coord)) (hinv : AInv pf s goal st)
    (hpop : heapPop st.frontier = some ((p, cur), rest)) (hne : cur ≠ goal) :
    AInv pf s goal
      (List.foldl (relax pf goal cur) { st with frontier := rest } (pf.get_neighbors cur)) ∧
    mu pf (List.foldl (relax pf goal cur) { st with frontier := rest }
      (pf.get_neighbors cur)) < mu pf st := by
  obtain ⟨hE, ⟨vc, hvc⟩, hlen⟩ := pop_except pf s goal st p cur rest hinv hpop hne
  obtain ⟨hE2, hvc2, hnb2, hmono2, hfr2, hmu2⟩ :=
    relaxList_except pf s goal cur (pf.get_neighbors cur) { st with frontier := rest } vc
      hE hvc (fun n hn => hn)
  constructor
  · constructor
    case start_cost => exact hE2.start_cost
    case start_valid => exact hE2.start_valid
    case cost_sound => exact hE2.cost_sound
    case parent_start => exact hE2.parent_start
    case parent_none => exact hE2.parent_none
    case dom_eq => exact hE2.dom_eq
    case parent_link => exact hE2.parent_link
    case frontier_low => exact hE2.frontier_low
    case cover =>
      intro c v hcv _
      by_cases hc : c = cur
      · subst hc
        right
        rw [hvc2] at hcv
        cases hcv
        intro n hn
        exact hnb2 n hn
      · exact hE2.cover c v hcv (by simp [hc])
    case goal_pending => exact hE2.goal_pending
    case value_bound => exact hE2.value_bound
  · unfold mu at *
    have : ({ st with frontier := rest } : AState).frontier.length = rest.length := rfl
    have hphi_eq : phi pf { st with frontier := rest } = phi pf st := rfl
    omega

/-! ## The main loop -/

/-- The heuristic of a cell to itself vanishes. -/
theorem heuristic_self (pf : Pathfinder) (c : Coord) : pf.heuristic c c = 0 := by
  unfold Pathfinder.heuristic
  omega

/-- The distance of a valid cell to itself is zero. -/
theorem gdist_self (pf : Pathfinder) (c : Coord) (h : pf.is_valid c.1 c.2 = true) :
    gdist pf c c = 0 :=
  Nat.le_zero.mp (gdist_le pf c c 0 (Steps.refl c h))

/-- The invariant holds at the initial loop state. -/
theorem astarInit_inv (pf : Pathfinder) (s goal : Coord)
    (hvalid : pf.is_valid s.1 s.2 = true) : AInv pf s goal (astarInit s) := by
  have hcost : ∀ c, (astarInit s).cost c = if c = s then some 0 else none := by
    intro c
    by_cases hc : c = s
    · subst hc; simp [astarInit, Function.update]
    · simp [astarInit, Function.update, hc]
  have hcf : ∀ c, (astarInit s).cameFrom c = if c = s then some none else none := by
    intro c
    by_cases hc : c = s
    · subst hc; simp [astarInit, Function.update]
    · simp [astarInit, Function.update, hc]
  have hfr : (astarInit s).frontier = [(0, s)] := rfl
  have hkey : 1 ≤ keyCard pf (astarInit s) := by
    have hsmem : s ∈ pf.validCells.filter (fun c => ((astarInit s).cost c).isSome) := by
      rw [Finset.mem_filter]
      exact ⟨valid_mem_validCells pf s hvalid, by rw [hcost s]; simp⟩
    unfold keyCard
    exact Finset.card_pos.mpr ⟨s, hsmem⟩
  constructor
  case start_cost => rw [hcost s]; simp
  case start_valid => exact hvalid
  case cost_sound =>
    intro c v hcv
    rw [hcost c] at hcv
    split_ifs at hcv with hc
    · subst hc
      cases hcv
      exact Steps.refl c hvalid
  case parent_start => rw [hcf s]; simp
  case parent_none =>
    intro c hc
    rw [hcf c] at hc
    split_ifs at hc with h
    · exact h
  case dom_eq =>
    intro c
    rw [hcost c, hcf c]
    split_ifs <;> rfl
  case parent_link =>
    intro c pc hlink
    rw [hcf c] at hlink
    split_ifs at hlink
    · cases hlink
  case frontier_low =>
    intro p c hpc
    rw [hfr] at hpc
    simp at hpc
    obtain ⟨hp, hc⟩ := hpc
    subst hp
    subst hc
    refine ⟨0, by rw [hcost c]; simp, Or.inr ⟨rfl, rfl⟩⟩
  case cover =>
    intro c v hcv _
    rw [hcost c] at hcv
    split_ifs at hcv with hc
    · subst hc
      cases hcv
      left
      exact ⟨0, by rw [hfr]; simp, by omega⟩
  case goal_pending =>
    intro v hv
    rw [hcost goal] at hv
    split_ifs at hv with hg
    · subst hg
      cases hv
      exact ⟨0, by rw [hfr]; simp, by omega⟩
  case value_bound =>
    intro c v hcv
    rw [hcost c] at hcv
    split_ifs at hcv with hc
    · cases hcv
      omega

/-- One unfolding of the loop. -/
theorem astarLoop_succ (pf : Pathfinder) (goal : Coord) (fuel : ℕ) (st : AState) :
    astarLoop pf goal (fuel + 1) st =
      match heapPop st.frontier with
      | none => some none
      | some ((_, cur), rest) =>
        if cur = goal then
          some (reconstruct st.cameFrom (pf.cellCount + 1) cur [])
        else
          astarLoop pf goal fuel
            (List.foldl (relax pf goal cur) { st with frontier := rest }
              (pf.get_neighbors cur)) := rfl

/-- With fuel above the measure, the loop always returns. -/
theorem astarLoop_total (pf : Pathfinder) (s goal : Coord) :
    ∀ (fuel : ℕ) (st : AState), AInv pf s goal st → mu pf st < fuel →
    astarLoop pf goal fuel st ≠ none := by
  intro fuel
  induction fuel with
  | zero => intro st _ hmu; omega
  | succ fuel ih =>
    intro st hinv hmu
    rw [astarLoop_succ]
    cases hpop : heapPop st.frontier with
    | none => simp
    | some r =>
      obtain ⟨⟨p, cur⟩, rest⟩ := r
      by_cases hcur : cur = goal
      · simp [hcur]
      · simp only [hcur, if_false]
        obtain ⟨hinv2, hmu2⟩ := astar_step pf s goal st p cur rest hinv hpop hcur
        exact ih _ hinv2 (by omega)

/-- Costs stay below the cell count. -/
theorem cost_lt_cellCount (pf : Pathfinder) (s goal : Coord) (st : AState)
    (hinv : AInvE pf s goal st none) (c : Coord) (v : ℕ) (hv : st.cost c = some v) :
    v < pf.cellCount + 1 := by
  have h1 := hinv.value_bound c v hv
  have h2 := keyCard_le_card pf st
  have h3 := validCells_card_le pf
  omega

/-- Reconstruction of the parent chain produces a path from the start of
length bounded by the stored cost. -/
theorem reconstruct_spec (pf : Pathfinder) (s goal : Coord) (st : AState)
    (hinv : AInv pf s goal st) :
    ∀ (fuel vc : ℕ) (c : Coord) (acc : List Coord), st.cost c = some vc → vc < fuel →
    ∃ q, reconstruct st.cameFrom fuel c acc = some (q ++ acc) ∧ q.head? = some s ∧
      q.getLast? = some c ∧ List.Chain' (StepOk pf) q ∧ q ≠ [] ∧ q.length ≤ vc + 1 := by
  intro fuel
  induction fuel with
  | zero => intro vc c acc _ hlt; omega
  | succ fuel ih =>
    intro vc c acc hc hlt
    have hdom := hinv.dom_eq c
    rw [hc] at hdom
    cases hcf : st.cameFrom c with
    | none => rw [hcf] at hdom; simp at hdom
    | some par =>
      cases par with
      | none =>
        have hcs := hinv.parent_none c hcf
        subst hcs
        refine ⟨[c], ?_, rfl, rfl, by simp, by simp,
          by simp only [List.length_singleton]; omega⟩
        unfold reconstruct
        rw [hcf]
        simp
      | some pc =>
        obtain ⟨vc2, vp, hc2, hp2, hlt2, hstep⟩ := hinv.parent_link c pc hcf
        rw [hc] at hc2
        cases hc2
        obtain ⟨q, hrec, hhead, hlast, hchain, hne, hlen⟩ :=
          ih vp pc (c :: acc) hp2 (by omega)
        refine ⟨q ++ [c], ?_, ?_, List.getLast?_concat q, ?_, by simp, ?_⟩
        · show reconstruct st.cameFrom (fuel + 1) c acc = _
          unfold reconstruct
          rw [hcf]
          dsimp only
          rw [hrec]
          simp
        · rcases q with _ | ⟨x, tl⟩
          · simp at hhead
          · simpa using hhead
        · rw [List.chain'_append]
          refine ⟨hchain, by simp, ?_⟩
          intro x hx y hy
          simp at hy
          subst hy
          rw [hlast] at hx
          simp at hx
          subst hx
          exact hstep
        · simp only [List.length_append, List.length_singleton]
          omega

/-- Walking a shortest path from a settled cell: either the target is
settled optimally, or some optimally settled cell on a shortest path to it
still has a frontier entry at most its f-value. -/
theorem cover_walk (pf : Pathfinder) (s goal : Coord) (st : AState)
    (hinv : AInv pf s goal st) :
    ∀ (k : ℕ) (y z : Coord), st.cost y = some (gdist pf s y) → Steps pf y z k →
    gdist pf s y + k = gdist pf s z →
    st.cost z = some (gdist pf s z) ∨
    ∃ (q : ℕ) (w : Coord) (m : ℕ), (q, w) ∈ st.frontier ∧
      st.cost w = some (gdist pf s w) ∧ Steps pf w z m ∧
      gdist pf s w + m = gdist pf s z ∧ q ≤ gdist pf s w + pf.heuristic w goal := by
  intro k
  induction k with
  | zero =>
    intro y z hy hwalk hsum
    rw [← steps_zero pf y z hwalk]
    left
    exact hy
  | succ m ih =>
    intro y z hy hwalk hsum
    rcases hinv.cover y (gdist pf s y) hy (by simp) with ⟨q, hqmem, hqle⟩ | hall
    · right
      exact ⟨q, y, m + 1, hqmem, hy, hwalk, hsum, hqle⟩
    · obtain ⟨w, hstep, hrest⟩ := steps_front pf y z m hwalk
      obtain ⟨vw, hvw, hvwle⟩ := hall w hstep
      have hsy : Steps pf s y (gdist pf s y) := hinv.cost_sound y (gdist pf s y) hy
      have hsw_ub : gdist pf s w ≤ gdist pf s y + 1 :=
        gdist_le pf s w _ (Steps.tail s y w (gdist pf s y) hsy hstep)
      have hsw_steps : Steps pf s w vw := hinv.cost_sound w vw hvw
      have hvw_ge : gdist pf s w ≤ vw := gdist_le pf s w vw hsw_steps
      have hz_ub : gdist pf s z ≤ gdist pf s w + m :=
        gdist_le pf s z _ (steps_trans pf s w z _ m (gdist_steps pf s w vw hsw_steps) hrest)
      have hsw_lb : gdist pf s y + 1 ≤ gdist pf s w := by omega
      have hsw_eq : gdist pf s w = gdist pf s y + 1 := le_antisymm hsw_ub hsw_lb
      have hvw_eq : vw = gdist pf s w := by omega
      subst hvw_eq
      exact ih w z hvw hrest (by omega)

/-- When the goal's entry is popped, its stored cost is optimal. -/
theorem pop_goal_opt (pf : Pathfinder) (s goal : Coord) (st : AState) (p : ℕ)
    (rest : List (ℕ × Coord)) (v : ℕ) (hinv : AInv pf s goal st)
    (hpop : heapPop st.frontier = some ((p, goal), rest)) (hv : st.cost goal = some v) :
    v = gdist pf s goal := by
  have hreach : Steps pf s goal v := hinv.cost_sound goal v hv
  have hge : gdist pf s goal ≤ v := gdist_le pf s goal v hreach
  by_cases hgs : goal = s
  · subst hgs
    rw [hinv.start_cost] at hv
    cases hv
    omega
  rcases Nat.lt_or_ge (gdist pf s goal) v with hlt | hge2
  swap
  · omega
  exfalso
  have hs0 : st.cost s = some (gdist pf s s) := by
    rw [gdist_self pf s hinv.start_valid]
    exact hinv.start_cost
  have hwalk0 : Steps pf s goal (gdist pf s goal) := gdist_steps pf s goal v hreach
  have hsum0 : gdist pf s s + gdist pf s goal = gdist pf s goal := by
    rw [gdist_self pf s hinv.start_valid]
    omega
  rcases cover_walk pf s goal st hinv (gdist pf s goal) s goal hs0 hwalk0 hsum0 with
    heq | ⟨q, w, m, hqmem, hw, hwwalk, hwsum, hqle⟩
  · rw [heq] at hv
    cases hv
    omega
  · have hadm : pf.heuristic w goal ≤ m := heuristic_admissible pf w goal m hwwalk
    have hqbound : q ≤ gdist pf s goal := by omega
    have hmin := heapPop_min st.frontier (p, goal) rest hpop (q, w) hqmem
    have hple : p ≤ q := entryLe_fst _ _ hmin
    have hperm := heapPop_perm st.frontier (p, goal) rest hpop
    have hmem_pop : (p, goal) ∈ st.frontier := hperm.mem_iff.mpr (List.mem_cons_self _ _)
    obtain ⟨v0, hv0, hbound⟩ := hinv.frontier_low p goal hmem_pop
    rw [hv] at hv0
    cases hv0
    rcases hbound with hb | ⟨hbs, _⟩
    · rw [heuristic_self] at hb
      omega
    · exact hgs hbs

/-- A successful loop returns a shortest path from start to goal. -/
theorem astarLoop_sound (pf : Pathfinder) (s goal : Coord) :
    ∀ (fuel : ℕ) (st : AState) (r : List Coord), AInv pf s goal st →
    astarLoop pf goal fuel st = some (some r) →
    IsPath pf s goal r ∧ r.length = gdist pf s goal + 1 := by
  intro fuel
  induction fuel with
  | zero => intro st r _ h; simp [astarLoop] at h
  | succ fuel ih =>
    intro st r hinv hres
    rw [astarLoop_succ] at hres
    cases hpop : heapPop st.frontier with
    | none => rw [hpop] at hres; simp at hres
    | some pr =>
      obtain ⟨⟨p, cur⟩, rest⟩ := pr
      rw [hpop] at hres
      dsimp only at hres
      by_cases hcur : cur = goal
      · subst hcur
        rw [if_pos rfl] at hres
        simp only [Option.some.injEq] at hres
        have hperm := heapPop_perm st.frontier (p, cur) rest hpop
        have hmem_pop : (p, cur) ∈ st.frontier := hperm.mem_iff.mpr (List.mem_cons_self _ _)
        obtain ⟨v, hv, _⟩ := hinv.frontier_low p cur hmem_pop
        have hvlt : v < pf.cellCount + 1 := cost_lt_cellCount pf s cur st hinv cur v hv
        obtain ⟨q, hrec, hhead, hlast, hchain, hne, hlen⟩ :=
          reconstruct_spec pf s cur st hinv (pf.cellCount + 1) v cur [] hv hvlt
        rw [hrec] at hres
        rw [List.append_nil] at hres
        have hqr : q = r := by injection hres
        subst hqr
        have hopt : v = gdist pf s cur := pop_goal_opt pf s cur st p rest v hinv hpop hv
        have hpath : IsPath pf s cur q := ⟨hhead, hlast, hchain, hinv.start_valid⟩
        have hsteps : Steps pf s cur (q.length - 1) := isPath_steps pf q s cur hpath
        have hlb : gdist pf s cur ≤ q.length - 1 := gdist_le pf s cur _ hsteps
        have hq_pos : 1 ≤ q.length := by
          rcases q with _ | _
          · simp at hne
          · simp
        refine ⟨hpath, by omega⟩
      · rw [if_neg hcur] at hres
        obtain ⟨hinv2, _⟩ := astar_step pf s goal st p cur rest hinv hpop hcur
        exact ih _ r hinv2 hres

/-- With an empty frontier every reachable cell has been discovered. -/
theorem empty_frontier_closed (pf : Pathfinder) (s goal : Coord) (st : AState)
    (hinv : AInv pf s goal st) (hfr : st.frontier = []) :
    ∀ (n : ℕ) (z : Coord), Steps pf s z n → (st.cost z).isSome := by
  intro n z hsteps
  induction hsteps with
  | refl hc => rw [hinv.start_cost]; rfl
  | tail b c k hab step ih =>
    cases hb : st.cost b with
    | none => rw [hb] at ih; simp at ih
    | some vb =>
      rcases hinv.cover b vb hb (by simp) with ⟨q, hqmem, _⟩ | hall
      · rw [hfr] at hqmem
        simp at hqmem
      · obtain ⟨vn, hvn, _⟩ := hall c step
        rw [hvn]
        rfl

/-- A loop that reports no path is right: the goal is unreachable. -/
theorem astarLoop_complete (pf : Pathfinder) (s goal : Coord) :
    ∀ (fuel : ℕ) (st : AState), AInv pf s goal st →
    astarLoop pf goal fuel st = some none → ∀ n, ¬ Steps pf s goal n := by
  intro fuel
  induction fuel with
  | zero => intro st _ h; simp [astarLoop] at h
  | succ fuel ih =>
    intro st hinv hres
    rw [astarLoop_succ] at hres
    cases hpop : heapPop st.frontier with
    | none =>
      intro n hsteps
      have hfr := (heapPop_none_iff st.frontier).mp hpop
      have hdom := empty_frontier_closed pf s goal st hinv hfr n goal hsteps
      cases hg : st.cost goal with
      | none => rw [hg] at hdom; simp at hdom
      | some v =>
        obtain ⟨q, hqmem, _⟩ := hinv.goal_pending v hg
        rw [hfr] at hqmem
        simp at hqmem
    | some pr =>
      obtain ⟨⟨p, cur⟩, rest⟩ := pr
      rw [hpop] at hres
      dsimp only at hres
      by_cases hcur : cur = goal
      · subst hcur
        rw [if_pos rfl] at hres
        simp only [Option.some.injEq] at hres
        have hperm := heapPop_perm st.frontier (p, cur) rest hpop
        have hmem_pop : (p, cur) ∈ st.frontier := hperm.mem_iff.mpr (List.mem_cons_self _ _)
        obtain ⟨v, hv, _⟩ := hinv.frontier_low p cur hmem_pop
        have hvlt : v < pf.cellCount + 1 := cost_lt_cellCount pf s cur st hinv cur v hv
        obtain ⟨q, hrec, _⟩ :=
          reconstruct_spec pf s cur st hinv (pf.cellCount + 1) v cur [] hv hvlt
        rw [hrec] at hres
        cases hres
      · rw [if_neg hcur] at hres
        obtain ⟨hinv2, _⟩ := astar_step pf s goal st p cur rest hinv hpop hcur
        exact ih _ hinv2 hres

/-- The initial measure is below the fuel bound. -/
theorem mu_init_lt (pf : Pathfinder) (s : Coord) :
    mu pf (astarInit s) < pf.fuelBound := by
  have hphi : phi pf (astarInit s) ≤ pf.validCells.card * pf.cellCount := by
    unfold phi
    have hterm : ∀ c ∈ pf.validCells,
        (((astarInit s).cost c).getD pf.cellCount) ≤ pf.cellCount := by
      intro c _
      by_cases hc : c = s
      · subst hc
        show ((Function.update (fun _ => none) c (some 0) : Coord → Option ℕ) c).getD _ ≤ _
        rw [Function.update_same]
        simp
      · show ((Function.update (fun _ => none) s (some 0) : Coord → Option ℕ) c).getD _ ≤ _
        rw [Function.update_noteq hc]
        simp
    simpa using Finset.sum_le_card_nsmul _ _ _ hterm
  have hcard := validCells_card_le pf
  have hmul : pf.validCells.card * pf.cellCount ≤ pf.cellCount * pf.cellCount :=
    Nat.mul_le_mul_right _ hcard
  unfold mu Pathfinder.fuelBound
  have hfr : (astarInit s).frontier.length = 1 := rfl
  omega

/-- `find_path` fails exactly on invalid endpoints or an unreachable
goal. -/
theorem find_path_none_iff (pf : Pathfinder) (s goal : Coord) :
    pf.find_path s goal = none ↔
      (pf.is_valid s.1 s.2 = false ∨ pf.is_valid goal.1 goal.2 = false ∨
        ¬Reachable pf s goal) := by
  unfold Pathfinder.find_path
  by_cases hs : pf.is_valid s.1 s.2 = true
  · by_cases hg : pf.is_valid goal.1 goal.2 = true
    · rw [if_neg (by simp [hs, hg])]
      have hinv0 := astarInit_inv pf s goal hs
      have hmu0 := mu_init_lt pf s
      cases hloop : astarLoop pf goal pf.fuelBound (astarInit s) with
      | none => exact absurd hloop (astarLoop_total pf s goal pf.fuelBound _ hinv0 hmu0)
      | some res =>
        cases res with
        | none =>
          simp only [Option.join]
          constructor
          · intro _
            refine Or.inr (Or.inr ?_)
            intro ⟨pth, hpth⟩
            exact astarLoop_complete pf s goal pf.fuelBound _ hinv0 hloop
              (pth.length - 1) (isPath_steps pf pth s goal hpth)
          · intro _
            rfl
        | some p =>
          obtain ⟨hpath, _⟩ := astarLoop_sound pf s goal pf.fuelBound _ p hinv0 hloop
          simp only [Option.join]
          constructor
          · intro hcontra
            cases hcontra
          · intro hdisj
            rcases hdisj with hd | hd | hd
            · rw [hs] at hd; cases hd
            · rw [hg] at hd; cases hd
            · exact absurd ⟨p, hpath⟩ hd
    · rw [if_pos (by simp [hg])]
      simp [hg]
  · rw [if_pos (by simp [hs])]
    simp [hs]

/-- `find_path` success gives a 4-connected path from start to goal of
minimal length. -/
theorem find_path_some_spec (pf : Pathfinder) (s goal : Coord) (p : List Coord)
    (h : pf.find_path s goal = some p) :
    IsPath pf s goal p ∧ ∀ q, IsPath pf s goal q → p.length ≤ q.length := by
  unfold Pathfinder.find_path at h
  by_cases hs : pf.is_valid s.1 s.2 = true
  · by_cases hg : pf.is_valid goal.1 goal.2 = true
    · rw [if_neg (by simp [hs, hg])] at h
      have hinv0 := astarInit_inv pf s goal hs
      have hmu0 := mu_init_lt pf s
      cases hloop : astarLoop pf goal pf.fuelBound (astarInit s) with
      | none => exact absurd hloop (astarLoop_total pf s goal pf.fuelBound _ hinv0 hmu0)
      | some res =>
        rw [hloop] at h
        cases res with
        | none => cases h
        | some p2 =>
          simp only [Option.join, Option.some_bind, id_eq, Option.some.injEq] at h
          subst h
          obtain ⟨hpath, hlen⟩ := astarLoop_sound pf s goal pf.fuelBound _ p2 hinv0 hloop
          refine ⟨hpath, ?_⟩
          intro q hq
          have hsteps := isPath_steps pf q s goal hq
          have hlb := gdist_le pf s goal _ hsteps
          have hq_pos : 1 ≤ q.length := by
            obtain ⟨hh, _, _, _⟩ := hq
            rcases q with _ | _
            · simp at hh
            · simp
          omega
    · rw [if_pos (by simp [hg])] at h
      cases h
  · rw [if_pos (by simp [hs])] at h
    cases h

/-- **C3.** `find_path` contract: the result is `none` exactly when the
start or the goal fails `is_valid` (out of bounds or blocked) or the goal
is unreachable from the start; a `some` result is a 4-connected path of
valid cells from start to goal of minimal length among all such paths;
the result is a function of `(width, height, obstacles, start, goal)`
alone, hence identical on every call; and on the empty 5×5 grid
`find_path (0,2) (4,2)` returns the straight 5-coordinate path whose
every coordinate has `y = 2`. -/
theorem find_path_contract (pf : Pathfinder) (s goal : Coord) :
    (pf.find_path s goal = none ↔
      pf.is_valid s.1 s.2 = false ∨ pf.is_valid goal.1 goal.2 = false ∨
        ¬Reachable pf s goal) ∧
    (∀ p, pf.find_path s goal = some p →
      IsPath pf s goal p ∧ ∀ q, IsPath pf s goal q → p.length ≤ q.length) ∧
    (∀ pf2 : Pathfinder, pf.width = pf2.width → pf.height = pf2.height →
      pf.obstacles = pf2.obstacles → pf.find_path s goal = pf2.find_path s goal) ∧
    (∃ p0, (Pathfinder.mk 5 5 ∅).find_path (0, 2) (4, 2) = some p0 ∧
      p0 = [(0, 2), (1, 2), (2, 2), (3, 2), (4, 2)] ∧
      p0.length = 5 ∧ ∀ c ∈ p0, c.2 = 2) := by
  refine ⟨find_path_none_iff pf s goal, ?_, ?_, ?_⟩
  · intro p hp
    exact find_path_some_spec pf s goal p hp
  · intro pf2 hw hh ho
    have hpf : pf = pf2 := by
      cases pf; cases pf2; simp_all
    rw [hpf]
  · exact ⟨[(0, 2), (1, 2), (2, 2), (3, 2), (4, 2)], by decide, rfl, rfl, by decide⟩

/-- Witness for C3: concrete application on the empty 5×5 grid — the
returned straight path is indeed a 4-connected path from `(0,2)` to
`(4,2)`. -/
theorem find_path_contract_witness :
    IsPath (Pathfinder.mk 5 5 ∅) (0, 2) (4, 2)
      [(0, 2), (1, 2), (2, 2), (3, 2), (4, 2)] :=
  ((find_path_contract (Pathfinder.mk 5 5 ∅) (0, 2) (4, 2)).2.1
    [(0, 2), (1, 2), (2, 2), (3, 2), (4, 2)] (by decide)).1

/-- **C4 (amended).** Tie-breaking: neighbour expansion is in the order
`+y, +x, −y, −x` (the candidate list of `get_neighbors`, filtered by
validity), the open set is keyed by cost-so-far plus Manhattan heuristic
with uniform step cost 1, and equal-cost ties in the open priority queue
are broken by Python's tuple comparison — the popped entry is minimal
under the lexicographic order on `(priority, (x, y))` — NOT in favour of
the first-discovered equal-cost node; on the empty 2×2 grid from `(0,1)`
to `(1,0)` the code takes the path through the lexicographically smaller
cell `(0,0)` although `(1,1)` was discovered first. -/
theorem astar_tie_break (pf : Pathfinder) (pos : Coord) (l : List (ℕ × Coord))
    (m : ℕ × Coord) (rest : List (ℕ × Coord)) (h : heapPop l = some (m, rest)) :
    (pf.get_neighbors pos =
      [(pos.1, pos.2 + 1), (pos.1 + 1, pos.2), (pos.1, pos.2 - 1),
        (pos.1 - 1, pos.2)].filter (fun c => pf.is_valid c.1 c.2)) ∧
    (∀ x ∈ l, entryLe m x) ∧
    ((Pathfinder.mk 2 2 ∅).find_path (0, 1) (1, 0) =
      some [(0, 1), (0, 0), (1, 0)]) :=
  ⟨rfl, heapPop_min l m rest h, by decide⟩

/-- Witness for C4: popping a heap holding two equal-priority entries
returns the one with the lexicographically smaller coordinate. -/
theorem astar_tie_break_witness :
    heapPop [(2, ((1 : ℤ), (1 : ℤ))), (2, ((0 : ℤ), (0 : ℤ)))] =
      some ((2, ((0 : ℤ), (0 : ℤ))), [(2, ((1 : ℤ), (1 : ℤ)))]) ∧
    entryLe (2, ((0 : ℤ), (0 : ℤ))) (2, ((1 : ℤ), (1 : ℤ))) := by
  have h := astar_tie_break (Pathfinder.mk 2 2 ∅) (0, 0)
    [(2, ((1 : ℤ), (1 : ℤ))), (2, ((0 : ℤ), (0 : ℤ)))]
    (2, ((0 : ℤ), (0 : ℤ))) [(2, ((1 : ℤ), (1 : ℤ)))] (by decide)
  exact ⟨by decide, h.2.1 (2, ((1 : ℤ), (1 : ℤ))) (by decide)⟩

/-- Counterexample for C4 as stated: on the empty 2×2 grid from `(0,1)`
to `(1,0)` there are two shortest paths; the code (heap keyed by
`(priority, (x,y))`) returns the path through `(0,0)`, while the
first-discovered tie-break the spec describes (`findPathFifo`, identical
except that the heap is keyed by `(priority, insertion counter)`) returns
the path through the first-discovered node `(1,1)` — the two disagree. -/
theorem astar_tie_break_counterexample :
    (Pathfinder.mk 2 2 ∅).find_path (0, 1) (1, 0) =
      some [(0, 1), (0, 0), (1, 0)] ∧
    findPathFifo (Pathfinder.mk 2 2 ∅) (0, 1) (1, 0) =
      some [(0, 1), (1, 1), (1, 0)] ∧
    (Pathfinder.mk 2 2 ∅).find_path (0, 1) (1, 0) ≠
      findPathFifo (Pathfinder.mk 2 2 ∅) (0, 1) (1, 0) :=
  ⟨by decide, by decide, by decide⟩

/-- Cell validity is monotone when the obstacle set shrinks and the bounds
stay put. -/
theorem is_valid_mono (pf1 pf2 : Pathfinder) (hw : pf1.width = pf2.width)
    (hh : pf1.height = pf2.height) (ho : pf2.obstacles ⊆ pf1.obstacles)
    (x y : ℤ) (h : pf1.is_valid x y = true) : pf2.is_valid x y = true := by
  unfold Pathfinder.is_valid at h ⊢
  simp only [Bool.and_eq_true, decide_eq_true_eq] at h ⊢
  exact ⟨⟨⟨⟨h.1.1.1.1, hw ▸ h.1.1.1.2⟩, h.1.1.2⟩, hh ▸ h.1.2⟩,
    fun hc => h.2 (ho hc)⟩

/-- Paths are monotone when the obstacle set shrinks. -/
theorem isPath_mono (pf1 pf2 : Pathfinder) (hw : pf1.width = pf2.width)
    (hh : pf1.height = pf2.height) (ho : pf2.obstacles ⊆ pf1.obstacles)
    (s e : Coord) (p : List Coord) (h : IsPath pf1 s e p) : IsPath pf2 s e p := by
  obtain ⟨h1, h2, h3, h4⟩ := h
  refine ⟨h1, h2, ?_, is_valid_mono pf1 pf2 hw hh ho _ _ h4⟩
  refine List.Chain'.imp ?_ h3
  intro a b hab
  unfold StepOk Pathfinder.get_neighbors at hab ⊢
  simp only [List.mem_filter] at hab ⊢
  exact ⟨hab.1, is_valid_mono pf1 pf2 hw hh ho _ _ hab.2⟩

/-- `has_path` is true exactly when both endpoints are valid and the goal
is reachable. -/
theorem has_path_true_iff (pf : Pathfinder) (s e : Coord) :
    pf.has_path s e = true ↔
      (pf.is_valid s.1 s.2 = true ∧ pf.is_valid e.1 e.2 = true ∧
        Reachable pf s e) := by
  unfold Pathfinder.has_path
  rw [Option.isSome_iff_ne_none, ne_eq, find_path_none_iff]
  push_neg
  constructor
  · rintro ⟨h1, h2, h3⟩
    refine ⟨?_, ?_, h3⟩
    · cases hb : pf.is_valid s.1 s.2
      · exact absurd hb h1
      · rfl
    · cases hb : pf.is_valid e.1 e.2
      · exact absurd hb h2
      · rfl
  · rintro ⟨h1, h2, h3⟩
    exact ⟨by simp [h1], by simp [h2], h3⟩

/-- `has_path` is monotone when the obstacle set shrinks. -/
theorem has_path_mono (pf1 pf2 : Pathfinder) (hw : pf1.width = pf2.width)
    (hh : pf1.height = pf2.height) (ho : pf2.obstacles ⊆ pf1.obstacles)
    (s e : Coord) (h : pf1.has_path s e = true) : pf2.has_path s e = true := by
  rw [has_path_true_iff] at h ⊢
  obtain ⟨h1, h2, p, hp⟩ := h
  exact ⟨is_valid_mono pf1 pf2 hw hh ho _ _ h1,
    is_valid_mono pf1 pf2 hw hh ho _ _ h2,
    p, isPath_mono pf1 pf2 hw hh ho _ _ _ hp⟩

/-- Every decoration set the generator can produce keeps the anchors
connected. -/
theorem decorGen_has_path (D : Finset Coord)
    (h : DecorGen 30 20 (0, 10) (29, 10) D) :
    (Pathfinder.mk 30 20 D).has_path (0, 10) (29, 10) = true := by
  induction h with
  | nil =>
    rw [has_path_true_iff]
    refine ⟨by decide, by decide,
      ⟨(List.range 30).map (fun i => ((i : ℤ), 10)), by decide⟩⟩
  | add D c hD hcD hcs hce hc1 hc2 hc3 hc4 hpath ih => exact hpath

/-- A fresh grid satisfies the connectivity invariant. -/
theorem gridInit_inv (g : GridState) (h : GridInit g) : GridInv g := by
  obtain ⟨hw, hh, hs, he, _, _, hdec, _, _, _, hpath⟩ := h
  refine ⟨?_, hpath⟩
  have hd := decorGen_has_path g.obstacles hdec
  unfold GridState.pf
  rw [hw, hh, hs, he]
  exact hd

/-- A successful placement validation certifies connectivity of the trial
obstacle set. -/
theorem is_valid_placement_true (g : GridState) (gx gy : ℤ)
    (h : g.is_valid_placement gx gy = some true) :
    (Pathfinder.mk g.width g.height (insert (gx, gy) g.obstacles)).has_path
      g.start_pos g.end_pos = true := by
  unfold GridState.is_valid_placement at h
  split_ifs at h
  · cases h
  · cases h1 : pyGet2 g.cells gx gy with
    | none => rw [h1] at h; cases h
    | some o =>
      rw [h1] at h
      cases o with
      | some d => dsimp only at h; cases h
      | none =>
        dsimp only at h
        cases h2 : pyGet2 g.decorations gx gy with
        | none => rw [h2] at h; cases h
        | some o2 =>
          rw [h2] at h
          cases o2 with
          | some d => dsimp only at h; cases h
          | none =>
            dsimp only at h
            injection h

/-- Each accepted mutating call preserves the connectivity invariant. -/
theorem runOp_preserves_inv (g g2 : GridState) (op : GOp)
    (hinv : GridInv g) (h : runOp g op = some (g2, true)) : GridInv g2 := by
  cases op with
  | place gx gy ty tid =>
    simp only [runOp] at h
    unfold GridState.place_tower at h
    cases hv : g.is_valid_placement gx gy with
    | none => rw [hv] at h; cases h
    | some b =>
      rw [hv] at h
      cases b with
      | false => simp at h
      | true =>
        cases hc : pySet2 g.cells gx gy (some ty) with
        | none => rw [hc] at h; simp at h
        | some cells2 =>
          rw [hc] at h
          dsimp only at h
          simp only [Option.some.injEq, Prod.mk.injEq, and_true] at h
          subst h
          exact ⟨is_valid_placement_true g gx gy hv, rfl⟩
  | remove gx gy =>
    simp only [runOp] at h
    unfold GridState.remove_tower at h
    cases h1 : pyGet2 g.cells gx gy with
    | none => rw [h1] at h; cases h
    | some o =>
      rw [h1] at h
      cases o with
      | none => simp at h
      | some d =>
        dsimp only at h
        cases hc : pySet2 g.cells gx gy none with
        | none => rw [hc] at h; cases h
        | some cells2 =>
          rw [hc] at h
          dsimp only at h
          simp only [Option.some.injEq, Prod.mk.injEq, and_true] at h
          subst h
          refine ⟨?_, rfl⟩
          exact has_path_mono g.pf
            (Pathfinder.mk g.width g.height (g.obstacles.erase (gx, gy)))
            rfl rfl (Finset.erase_subset _ _) g.start_pos g.end_pos hinv.1

/-- The connectivity invariant propagates down any accepted run. -/
theorem acceptedRun_inv (g0 gN : GridState) (ops : List GOp)
    (hrun : AcceptedRun g0 ops gN) : GridInv g0 → GridInv gN := by
  induction hrun with
  | nil g => exact id
  | cons g g2 g3 op ops hop hrest ih =>
    intro h0
    exact ih (runOp_preserves_inv g g2 op h0 hop)

/-- The invariant yields the path shape facts: non-empty, anchored at both
ends. -/
theorem gridInv_path_spec (g : GridState) (h : GridInv g) :
    g.current_path ≠ [] ∧ g.current_path.head? = some g.start_pos ∧
    g.current_path.getLast? = some g.end_pos := by
  obtain ⟨hp, hcp⟩ := h
  unfold Pathfinder.has_path at hp
  rw [Option.isSome_iff_exists] at hp
  obtain ⟨p, hsome⟩ := hp
  have hip := (find_path_some_spec _ _ _ p hsome).1
  unfold IsPath at hip
  obtain ⟨hhead, hlast, -, -⟩ := hip
  rw [hcp, hsome]
  simp only [Option.getD_some]
  refine ⟨?_, hhead, hlast⟩
  intro hnil
  rw [hnil] at hhead
  cases hhead

/-- In-range reads of an all-`none` replicated matrix. -/
theorem pyGet2_replicate_none (x y : ℤ) (hx0 : 0 ≤ x) (hx : x < 30)
    (hy0 : 0 ≤ y) (hy : y < 20) :
    pyGet2 (List.replicate 30 (List.replicate 20 (none : Option String))) x y =
      some none := by
  have hxl : x.toNat <
      (List.replicate 30 (List.replicate 20 (none : Option String))).length := by
    simp; omega
  unfold pyGet2
  rw [pyGet_pos _ x hx0 (by simp; omega), List.get?_eq_get hxl, List.get_replicate]
  show pyGet (List.replicate 20 (none : Option String)) y = some none
  have hyl : y.toNat < (List.replicate 20 (none : Option String)).length := by
    simp; omega
  rw [pyGet_pos _ y hy0 (by simp; omega), List.get?_eq_get hyl, List.get_replicate]

/-- `g30` is a legitimate `Grid.__init__` outcome. -/
theorem g30_init : GridInit g30 := by
  refine ⟨rfl, rfl, rfl, rfl, rfl, rfl, DecorGen.nil, rfl, ?_, ?_, rfl⟩
  · intro row hr
    rw [List.eq_of_mem_replicate hr]
    rfl
  · intro x y hx0 hx hy0 hy
    constructor
    · intro h
      exact absurd h (Finset.not_mem_empty _)
    · rintro ⟨d, hd⟩
      rw [show g30.decorations =
          List.replicate 30 (List.replicate 20 (none : Option String)) from rfl,
        pyGet2_replicate_none x y hx0 hx hy0 hy] at hd
      cases hd

/-- **C1.** Connectivity invariant: starting from any `Grid.__init__`
outcome, after any sequence of `place_tower` / `remove_tower` calls each
of which returned success, the current path is non-empty, starts at the
start anchor, ends at the end anchor, and `has_path(start, end)` is true;
and any single call that returns the failure flag leaves the entire grid
state (cells, towers, obstacles, path) unchanged. -/
theorem grid_connectivity (g0 gN : GridState) (ops : List GOp)
    (hinit : GridInit g0) (hrun : AcceptedRun g0 ops gN) :
    (gN.current_path ≠ [] ∧
     gN.current_path.head? = some gN.start_pos ∧
     gN.current_path.getLast? = some gN.end_pos ∧
     gN.pf.has_path gN.start_pos gN.end_pos = true) ∧
    (∀ (g g2 : GridState) (op : GOp), runOp g op = some (g2, false) → g2 = g) := by
  have hinv : GridInv gN := acceptedRun_inv g0 gN ops hrun (gridInit_inv g0 hinit)
  obtain ⟨hne, hhd, hlt⟩ := gridInv_path_spec gN hinv
  refine ⟨⟨hne, hhd, hlt, hinv.1⟩, ?_⟩
  intro g g2 op hop
  cases op with
  | place gx gy ty tid =>
    simp only [runOp] at hop
    unfold GridState.place_tower at hop
    cases hv : g.is_valid_placement gx gy with
    | none => rw [hv] at hop; cases hop
    | some b =>
      rw [hv] at hop
      cases b with
      | false =>
        dsimp only at hop
        simp only [Option.some.injEq, Prod.mk.injEq, and_true] at hop
        exact hop.symm
      | true =>
        cases hc : pySet2 g.cells gx gy (some ty) with
        | none => rw [hc] at hop; cases hop
        | some cells2 => rw [hc] at hop; simp at hop
  | remove gx gy =>
    simp only [runOp] at hop
    unfold GridState.remove_tower at hop
    cases h1 : pyGet2 g.cells gx gy with
    | none => rw [h1] at hop; cases hop
    | some o =>
      rw [h1] at hop
      cases o with
      | none =>
        dsimp only at hop
        simp only [Option.some.injEq, Prod.mk.injEq, and_true] at hop
        exact hop.symm
      | some d =>
        dsimp only at hop
        cases hc : pySet2 g.cells gx gy none with
        | none => rw [hc] at hop; cases hop
        | some cells2 => rw [hc] at hop; simp at hop

/-- Witness for C1: the empty accepted run on the concrete 30×20 grid
`g30`, and a rejected placement on the start anchor leaving the state
unchanged. -/
theorem grid_connectivity_witness :
    (g30.current_path ≠ [] ∧
     g30.current_path.head? = some g30.start_pos ∧
     g30.current_path.getLast? = some g30.end_pos ∧
     g30.pf.has_path g30.start_pos g30.end_pos = true) ∧
    g30 = g30 := by
  have h := grid_connectivity g30 g30 [] g30_init (AcceptedRun.nil g30)
  exact ⟨h.1, h.2 g30 g30 (GOp.place 0 10 "basic" 0) rfl⟩

end DeadEnd
